import Mathlib

/-!
# Verification of the traffic-statistics accumulator

Shallow embedding of `scripts/collect-traffic-stats.js`: the two-tier
all-time accumulator (legacy offset + per-day history + derived totals),
the v1→v2 schema migration, the per-day upsert / retention / total
recomputation pipeline, and the global aggregation step.

Modelling conventions:
* Calendar dates are ISO `YYYY-MM-DD` strings in the source and are only
  ever compared lexicographically (`<` against the retention cutoff,
  `localeCompare` in the sort).  On canonical ISO dates lexicographic
  order coincides with chronological order, so dates are modelled as
  `Nat` with the usual order, preserving all comparisons.
* JS counts are non-negative integers; they are modelled as `Nat`.
* The JS object `historyByDate` keyed by date (insertion-ordered keys,
  value overwrite on existing key) is modelled as an association list of
  records in key-insertion order.
* A rejected promise (network error, caught by `try/catch` in `main`) is
  `none : Option EndpointResponses`; a non-success HTTP response makes
  `makeRequest` RESOLVE with null data, modelled by `none` in the
  corresponding field of `EndpointResponses`.
-/

namespace Traffic

/-- `SCHEMA_VERSION` (line 38 of the source). -/
def SCHEMA_VERSION : Nat := 2

/-- `HISTORY_RETENTION_DAYS` (line 39 of the source). -/
def HISTORY_RETENTION_DAYS : Nat := 365

/-- A calendar date, abstracting the ISO `YYYY-MM-DD` string
(lexicographic string order = chronological order = `Nat` order). -/
abbrev Date := Nat

/-- One per-day history entry, as stored in `repoData.history`:
`{ date, clones, clonesUniques, views, viewsUniques }`. -/
structure DayRecord where
  date : Date
  clones : Nat
  clonesUniques : Nat
  views : Nat
  viewsUniques : Nat
  deriving Repr, DecidableEq

/-- The permanent baseline `repo.legacyOffset = { clones, views }`. -/
structure LegacyOffset where
  clones : Nat
  views : Nat
  deriving Repr, DecidableEq

/-- Per-repository accumulator state, one value of
`historicalData.repositories[repo]`. -/
structure RepoData where
  legacyOffset : LegacyOffset
  totalClones : Nat
  totalViews : Nat
  totalPRs : Nat
  totalCommits : Nat
  history : List DayRecord
  deriving Repr, DecidableEq

/-- One `(date, count, uniques)` tuple of `clonesByDay` / `viewsByDay` as
returned by `fetchTrafficData`. -/
structure DayTuple where
  date : Date
  count : Nat
  uniques : Nat
  deriving Repr, DecidableEq

/-- The value returned by `fetchTrafficData`:
`{ repo, clonesByDay, viewsByDay, prs, commits }` (the `repo` name field
is carried by the caller). -/
structure FetchResult where
  clonesByDay : List DayTuple
  viewsByDay : List DayTuple
  prs : Nat
  commits : Nat
  deriving Repr, DecidableEq

/-- A raw per-day entry of the traffic API payload:
`{ timestamp, count, uniques }`.  The timestamp is an ISO timestamp whose
date part (`timestamp.split('T')[0]`) is `tsDate`; `count`/`uniques` may
be absent (`entry.count || 0`). -/
structure RawDay where
  tsDate : Date
  count : Option Nat
  uniques : Option Nat
  deriving Repr, DecidableEq

/-- The resolved responses of the four endpoint requests issued by
`fetchTrafficData` for one repository.  A `none` in a data field models a
non-success HTTP status, for which `makeRequest` resolves with
`{ data: null, headers: {} }` (lines 63–68) rather than rejecting.
`prsLinkLastPage` is `some n` when the pulls response carried a `link`
header matching `page=(\d+)>; rel="last"`. -/
structure EndpointResponses where
  clonesData : Option (List RawDay)
  viewsData : Option (List RawDay)
  prsLinkLastPage : Option Nat
  prsDataLen : Option Nat
  contributions : Option (List (Option Nat))
  deriving Repr, DecidableEq

/-- `fetchTrafficData` (lines 104–156): parse the per-day arrays
(defaulting absent arrays and fields), the PR count (from the `link`
header's last page × 100, else the returned array length, else 0) and the
commit count (sum of `c.contributions || 0`). -/
def fetchTrafficData (r : EndpointResponses) : FetchResult :=
  let prs := match r.prsLinkLastPage with
    | some n => n * 100
    | none => r.prsDataLen.getD 0
  let commits := ((r.contributions.getD []).map (fun c => c.getD 0)).sum
  { clonesByDay := (r.clonesData.getD []).map
      (fun d => { date := d.tsDate, count := d.count.getD 0, uniques := d.uniques.getD 0 })
  , viewsByDay := (r.viewsData.getD []).map
      (fun d => { date := d.tsDate, count := d.count.getD 0, uniques := d.uniques.getD 0 })
  , prs := prs
  , commits := commits }

/-- All four endpoints answered with a non-success status:
`makeRequest` resolved each with null data. -/
def noDataResponses : EndpointResponses :=
  { clonesData := none, viewsData := none, prsLinkLastPage := none
  , prsDataLen := none, contributions := none }

/-- The fresh accumulator created for a brand-new repository
(lines 250–259). -/
def initRepo : RepoData :=
  { legacyOffset := { clones := 0, views := 0 }
  , totalClones := 0, totalViews := 0, totalPRs := 0, totalCommits := 0
  , history := [] }

/-- `historyByDate[entry.date] = entry` over `repoData.history`
(lines 270–271): a JS object keyed by date keeps first-insertion key
order and overwrites the value on an existing key. -/
def buildByDate (history : List DayRecord) : List DayRecord :=
  history.foldl
    (fun acc e =>
      if acc.any (fun x => x.date = e.date) then
        acc.map (fun x => if x.date = e.date then e else x)
      else acc ++ [e])
    []

/-- Upsert of one clones tuple (lines 274–281): overwrite `clones` /
`clonesUniques` of the record at that date if present, else insert a new
record with the views fields zeroed. -/
def upsertClones (l : List DayRecord) (t : DayTuple) : List DayRecord :=
  if l.any (fun x => x.date = t.date) then
    l.map (fun x =>
      if x.date = t.date then
        { x with clones := t.count, clonesUniques := t.uniques }
      else x)
  else
    l ++ [{ date := t.date, clones := t.count, clonesUniques := t.uniques
          , views := 0, viewsUniques := 0 }]

/-- Upsert of one views tuple (lines 283–290): overwrite `views` /
`viewsUniques` of the record at that date if present, else insert a new
record with the clones fields zeroed. -/
def upsertViews (l : List DayRecord) (t : DayTuple) : List DayRecord :=
  if l.any (fun x => x.date = t.date) then
    l.map (fun x =>
      if x.date = t.date then
        { x with views := t.count, viewsUniques := t.uniques }
      else x)
  else
    l ++ [{ date := t.date, clones := 0, clonesUniques := 0
          , views := t.count, viewsUniques := t.uniques }]

/-- The retention loop (lines 298–307): entries with `date < cutoff` are
absorbed into `legacyOffset`, the others are pushed onto `toRetain`. -/
def agePartition (cutoff : Date) (off : LegacyOffset) (entries : List DayRecord) :
    LegacyOffset × List DayRecord :=
  entries.foldl
    (fun acc e =>
      if e.date < cutoff then
        ({ clones := acc.1.clones + e.clones, views := acc.1.views + e.views }, acc.2)
      else (acc.1, acc.2 ++ [e]))
    (off, [])

/-- `history.reduce((sum, e) => sum + (e.clones || 0), 0)` (line 313). -/
def sumClones (l : List DayRecord) : Nat := (l.map (fun e => e.clones)).sum

/-- `history.reduce((sum, e) => sum + (e.views || 0), 0)` (line 314). -/
def sumViews (l : List DayRecord) : Nat := (l.map (fun e => e.views)).sum

/-- The comparison `a.date.localeCompare(b.date)` of the history sort
(line 296), as the sort relation it induces. -/
def byDateLe (a b : DayRecord) : Prop := a.date ≤ b.date

instance : DecidableRel byDateLe := fun a b => Nat.decLe a.date b.date

/-- The per-repository reconciliation body (lines 268–319): build the
date-keyed map, upsert both windowed metrics, sort by date
(`localeCompare`; `Array.prototype.sort` is stable, and a stable sort's
output is unique, so the stable `insertionSort` models it exactly),
apply retention, recompute the all-time totals, and overwrite the
point-in-time counters. -/
def reconcileRepo (cutoff : Date) (r : RepoData) (f : FetchResult) : RepoData :=
  let byDate0 := buildByDate r.history
  let byDate1 := f.clonesByDay.foldl upsertClones byDate0
  let byDate2 := f.viewsByDay.foldl upsertViews byDate1
  let allEntries := byDate2.insertionSort byDateLe
  let aged := agePartition cutoff r.legacyOffset allEntries
  { legacyOffset := aged.1
  , history := aged.2
  , totalClones := aged.1.clones + sumClones aged.2
  , totalViews := aged.1.views + sumViews aged.2
  , totalPRs := f.prs
  , totalCommits := f.commits }

/-- The v1→v2 migration of one repository entry (lines 218–228):
snapshot the prior totals into `legacyOffset`, clear the history, and
zero the derived totals (to be recomputed at the next reconcile). -/
def migrateRepo (r : RepoData) : RepoData :=
  { r with
    legacyOffset := { clones := r.totalClones, views := r.totalViews }
  , history := []
  , totalClones := 0
  , totalViews := 0 }

/-- The persisted ledger document `historicalData`.  A missing
`schemaVersion` field (falsy in JS, line 214) is modelled as `0`; a null
`lastUpdated` as `""`. -/
structure Ledger where
  schemaVersion : Nat
  lastUpdated : String
  totalClones : Nat
  totalViews : Nat
  totalPRs : Nat
  totalCommits : Nat
  totalContributions : Nat
  repositories : List (String × RepoData)
  deriving Repr, DecidableEq

/-- The migration block of `main` (lines 214–233): runs only when
`schemaVersion` is absent or below `SCHEMA_VERSION`. -/
def migrateLedger (L : Ledger) : Ledger :=
  if L.schemaVersion < SCHEMA_VERSION then
    { L with
      repositories := L.repositories.map (fun p => (p.1, migrateRepo p.2))
    , schemaVersion := SCHEMA_VERSION }
  else L

/-- Lookup `historicalData.repositories[repo]`. -/
def getRepo (m : List (String × RepoData)) (name : String) : Option RepoData :=
  (m.find? (fun p => p.1 = name)).map (fun p => p.2)

/-- Assignment `historicalData.repositories[repo] = r`: overwrite the
value at an existing key, else append a new key. -/
def setRepo (m : List (String × RepoData)) (name : String) (r : RepoData) :
    List (String × RepoData) :=
  if m.any (fun p => p.1 = name) then
    m.map (fun p => if p.1 = name then (name, r) else p)
  else m ++ [(name, r)]

/-- Processing of one repository inside the `try/catch` of the main loop
(lines 244–325): a rejected fetch (`none`) is caught and the ledger entry
is left untouched (a missing entry is not even created); a resolved fetch
initialises a missing entry and reconciles. -/
def processEntry (cutoff : Date) (entry : Option RepoData)
    (outcome : Option EndpointResponses) : Option RepoData :=
  match outcome with
  | none => entry
  | some resp => some (reconcileRepo cutoff (entry.getD initRepo) (fetchTrafficData resp))

/-- The main per-repository loop (lines 244–329) over the discovered
repository list. -/
def processRepos (cutoff : Date) (fetch : String → Option EndpointResponses)
    (repos : List String) (m : List (String × RepoData)) :
    List (String × RepoData) :=
  repos.foldl
    (fun m name =>
      match fetch name with
      | none => m
      | some resp =>
          setRepo m name
            (reconcileRepo cutoff ((getRepo m name).getD initRepo) (fetchTrafficData resp)))
    m

/-- One whole run of `main` after discovery (lines 199–349): load →
migrate → reconcile each repository → recompute the global totals as a
fold over all repository entries → derive `totalContributions` → stamp
`lastUpdated`.  `cutoff` is the precomputed `retentionCutoffStr`
(today − `HISTORY_RETENTION_DAYS`); `now` the completion timestamp. -/
def runMain (cutoff : Date) (now : String) (repos : List String)
    (fetch : String → Option EndpointResponses) (L : Ledger) : Ledger :=
  let L1 := migrateLedger L
  let m := processRepos cutoff fetch repos L1.repositories
  let tc := m.foldl (fun s p => s + p.2.totalClones) 0
  let tv := m.foldl (fun s p => s + p.2.totalViews) 0
  let tp := m.foldl (fun s p => s + p.2.totalPRs) 0
  let tm := m.foldl (fun s p => s + p.2.totalCommits) 0
  { L1 with
    repositories := m
  , totalClones := tc
  , totalViews := tv
  , totalPRs := tp
  , totalCommits := tm
  , totalContributions := tm + tp * 10
  , lastUpdated := now }

/-- `history` has at most one record per calendar date. -/
abbrev datesUnique (l : List DayRecord) : Prop :=
  l.Pairwise (fun a b => a.date ≠ b.date)

/-- Invariant 1 of the spec for one entity: the derived totals equal the
baseline plus the retained per-day sums. -/
abbrev totalsInv (r : RepoData) : Prop :=
  r.totalClones = r.legacyOffset.clones + sumClones r.history ∧
  r.totalViews = r.legacyOffset.views + sumViews r.history

instance : IsTotal DayRecord byDateLe := ⟨fun a b => Nat.le_total a.date b.date⟩

instance : IsTrans DayRecord byDateLe := ⟨fun _ _ _ => Nat.le_trans⟩

/-- The date-keyed map after both upsert passes, before sorting. -/
def upserted (r : RepoData) (f : FetchResult) : List DayRecord :=
  f.viewsByDay.foldl upsertViews (f.clonesByDay.foldl upsertClones (buildByDate r.history))

/-- Key-to-value determinacy of a repositories map. -/
def valuesByKey (m : List (String × RepoData)) : Prop :=
  ∀ p ∈ m, ∀ q ∈ m, p.1 = q.1 → p.2 = q.2

/-! ### Concrete states used by witnesses and counterexamples -/

/-- A pre-v2 ledger holding one repository with 120 accumulated clones. -/
def legacyLedger : Ledger :=
  { schemaVersion := 1, lastUpdated := "", totalClones := 120, totalViews := 30
  , totalPRs := 2, totalCommits := 3, totalContributions := 0
  , repositories := [("a",
      { legacyOffset := { clones := 0, views := 0 }
      , totalClones := 120, totalViews := 30, totalPRs := 2, totalCommits := 3
      , history := [{ date := 1, clones := 1, clonesUniques := 1, views := 1, viewsUniques := 1 }] })] }

/-- A current-schema ledger holding one freshly initialised repository. -/
def freshLedger : Ledger :=
  { schemaVersion := 2, lastUpdated := "", totalClones := 0, totalViews := 0
  , totalPRs := 0, totalCommits := 0, totalContributions := 0
  , repositories := [("r1", initRepo)] }

/-- A current-schema ledger holding one repository whose only history
entry (date 10) is far older than the retention cutoff (100). -/
def staleLedger : Ledger :=
  { schemaVersion := 2, lastUpdated := "", totalClones := 4, totalViews := 0
  , totalPRs := 0, totalCommits := 0, totalContributions := 0
  , repositories := [("a",
      { legacyOffset := { clones := 0, views := 0 }
      , totalClones := 4, totalViews := 0, totalPRs := 0, totalCommits := 0
      , history := [{ date := 10, clones := 4, clonesUniques := 1, views := 0, viewsUniques := 0 }] })] }

/-- A repository state with non-zero point-in-time counters. -/
def repoWithPRs : RepoData :=
  { legacyOffset := { clones := 0, views := 0 }
  , totalClones := 0, totalViews := 0, totalPRs := 7, totalCommits := 5
  , history := [] }

/-- A repository state satisfying the per-entity invariants, with one
in-window history record at date 150. -/
def monoRepo : RepoData :=
  { legacyOffset := { clones := 100, views := 50 }
  , totalClones := 104, totalViews := 52, totalPRs := 1, totalCommits := 2
  , history := [{ date := 150, clones := 4, clonesUniques := 1, views := 2, viewsUniques := 1 }] }

/-- A fetch window revising date 150 upward and adding date 151. -/
def monoFetch : FetchResult :=
  { clonesByDay := [{ date := 150, count := 6, uniques := 2 }, { date := 151, count := 3, uniques := 1 }]
  , viewsByDay := [{ date := 150, count := 7, uniques := 1 }]
  , prs := 5, commits := 9 }

/-- A resolved set of endpoint responses: one in-window clones day, a
failed views endpoint, a short pulls list and one contributor. -/
def okResponses : EndpointResponses :=
  { clonesData := some [{ tsDate := 150, count := some 3, uniques := some 1 }]
  , viewsData := none
  , prsLinkLastPage := none
  , prsDataLen := some 2
  , contributions := some [some 4, none] }

/-! ## Helper lemmas -/

theorem foldl_add_eq_sum {α : Type} (g : α → Nat) (l : List α) (n : Nat) :
    l.foldl (fun s a => s + g a) n = n + (l.map g).sum := by
  induction l generalizing n with
  | nil => simp
  | cons a l ih => simp [List.foldl_cons, ih, Nat.add_assoc]

theorem sumClones_cons (e : DayRecord) (l : List DayRecord) :
    sumClones (e :: l) = e.clones + sumClones l := by
  simp [sumClones]

theorem sumViews_cons (e : DayRecord) (l : List DayRecord) :
    sumViews (e :: l) = e.views + sumViews l := by
  simp [sumViews]

theorem sumClones_append (l₁ l₂ : List DayRecord) :
    sumClones (l₁ ++ l₂) = sumClones l₁ + sumClones l₂ := by
  simp [sumClones]

theorem sumViews_append (l₁ l₂ : List DayRecord) :
    sumViews (l₁ ++ l₂) = sumViews l₁ + sumViews l₂ := by
  simp [sumViews]

theorem sumClones_perm {l₁ l₂ : List DayRecord} (h : l₁.Perm l₂) :
    sumClones l₁ = sumClones l₂ := by
  simpa [sumClones] using (h.map (fun e => e.clones)).sum_eq

theorem sumViews_perm {l₁ l₂ : List DayRecord} (h : l₁.Perm l₂) :
    sumViews l₁ = sumViews l₂ := by
  simpa [sumViews] using (h.map (fun e => e.views)).sum_eq

/-- Closed form of the retention loop: aged entries (strictly before the
cutoff) are summed into the offset, the rest are retained in order. -/
theorem agePartition_eq (cutoff : Date) (off : LegacyOffset) (l : List DayRecord) :
    agePartition cutoff off l =
      ({ clones := off.clones + sumClones (l.filter (fun e => e.date < cutoff))
       , views := off.views + sumViews (l.filter (fun e => e.date < cutoff)) },
       l.filter (fun e => !(decide (e.date < cutoff)))) := by
  have main : ∀ (l : List DayRecord) (off : LegacyOffset) (acc : List DayRecord),
      l.foldl
        (fun acc e =>
          if e.date < cutoff then
            ({ clones := acc.1.clones + e.clones, views := acc.1.views + e.views }, acc.2)
          else (acc.1, acc.2 ++ [e]))
        (off, acc) =
      ({ clones := off.clones + sumClones (l.filter (fun e => e.date < cutoff))
       , views := off.views + sumViews (l.filter (fun e => e.date < cutoff)) },
       acc ++ l.filter (fun e => !(decide (e.date < cutoff)))) := by
    intro l
    induction l with
    | nil => intro off acc; simp [sumClones, sumViews]
    | cons e l ih =>
        intro off acc
        by_cases h : e.date < cutoff
        · simp [List.foldl_cons, h, ih, List.filter_cons, sumClones_cons, sumViews_cons,
            Nat.add_assoc]
        · simp [List.foldl_cons, h, ih, List.filter_cons]
  simpa [agePartition] using main l off []

theorem agePartition_fst_clones (cutoff : Date) (off : LegacyOffset) (l : List DayRecord) :
    (agePartition cutoff off l).1.clones =
      off.clones + sumClones (l.filter (fun e => e.date < cutoff)) := by
  rw [agePartition_eq]

theorem agePartition_fst_views (cutoff : Date) (off : LegacyOffset) (l : List DayRecord) :
    (agePartition cutoff off l).1.views =
      off.views + sumViews (l.filter (fun e => e.date < cutoff)) := by
  rw [agePartition_eq]

theorem agePartition_snd (cutoff : Date) (off : LegacyOffset) (l : List DayRecord) :
    (agePartition cutoff off l).2 = l.filter (fun e => !(decide (e.date < cutoff))) := by
  rw [agePartition_eq]

/-- Retention is lossless: offset plus retained sum equals the old offset
plus the total sum (for clones). -/
theorem agePartition_lossless_clones (cutoff : Date) (off : LegacyOffset) (l : List DayRecord) :
    (agePartition cutoff off l).1.clones + sumClones (agePartition cutoff off l).2 =
      off.clones + sumClones l := by
  rw [agePartition_fst_clones, agePartition_snd]
  have : sumClones (l.filter (fun e => e.date < cutoff)) +
      sumClones (l.filter (fun e => !(decide (e.date < cutoff)))) = sumClones l := by
    induction l with
    | nil => simp [sumClones]
    | cons e l ih =>
        by_cases h : e.date < cutoff <;>
          simp [List.filter_cons, h, sumClones_cons] <;> omega
  omega

/-- Retention is lossless: offset plus retained sum equals the old offset
plus the total sum (for views). -/
theorem agePartition_lossless_views (cutoff : Date) (off : LegacyOffset) (l : List DayRecord) :
    (agePartition cutoff off l).1.views + sumViews (agePartition cutoff off l).2 =
      off.views + sumViews l := by
  rw [agePartition_fst_views, agePartition_snd]
  have : sumViews (l.filter (fun e => e.date < cutoff)) +
      sumViews (l.filter (fun e => !(decide (e.date < cutoff)))) = sumViews l := by
    induction l with
    | nil => simp [sumViews]
    | cons e l ih =>
        by_cases h : e.date < cutoff <;>
          simp [List.filter_cons, h, sumViews_cons] <;> omega
  omega

/-! ### Upsert lemmas -/

theorem mem_upsertClones {l : List DayRecord} {t : DayTuple} {e : DayRecord}
    (h : e ∈ upsertClones l t) :
    (e ∈ l ∧ e.date ≠ t.date) ∨ e.date = t.date := by
  unfold upsertClones at h
  by_cases hany : l.any (fun x => x.date = t.date) = true
  · rw [if_pos hany] at h
    rcases List.mem_map.mp h with ⟨x, hx, hfx⟩
    by_cases hd : x.date = t.date
    · right; rw [← hfx]; simp [hd]
    · left
      constructor
      · rw [← hfx]; simp only [if_neg hd]; exact hx
      · rw [← hfx]; simp only [if_neg hd]; exact hd
  · rw [if_neg hany] at h
    rcases List.mem_append.mp h with h' | h'
    · left
      refine ⟨h', ?_⟩
      have := List.any_eq_false.mp (Bool.not_eq_true _ ▸ hany) e h'
      simpa using this
    · right; simp at h'; rw [h']

theorem mem_upsertViews {l : List DayRecord} {t : DayTuple} {e : DayRecord}
    (h : e ∈ upsertViews l t) :
    (e ∈ l ∧ e.date ≠ t.date) ∨ e.date = t.date := by
  unfold upsertViews at h
  by_cases hany : l.any (fun x => x.date = t.date) = true
  · rw [if_pos hany] at h
    rcases List.mem_map.mp h with ⟨x, hx, hfx⟩
    by_cases hd : x.date = t.date
    · right; rw [← hfx]; simp [hd]
    · left
      constructor
      · rw [← hfx]; simp only [if_neg hd]; exact hx
      · rw [← hfx]; simp only [if_neg hd]; exact hd
  · rw [if_neg hany] at h
    rcases List.mem_append.mp h with h' | h'
    · left
      refine ⟨h', ?_⟩
      have := List.any_eq_false.mp (Bool.not_eq_true _ ▸ hany) e h'
      simpa using this
    · right; simp at h'; rw [h']

theorem mem_upsertClones_of_ne {l : List DayRecord} {t : DayTuple} {e : DayRecord}
    (he : e ∈ l) (hne : e.date ≠ t.date) : e ∈ upsertClones l t := by
  unfold upsertClones
  by_cases hany : l.any (fun x => x.date = t.date) = true
  · rw [if_pos hany]
    exact List.mem_map.mpr ⟨e, he, by simp [hne]⟩
  · rw [if_neg hany]
    exact List.mem_append.mpr (Or.inl he)

theorem mem_upsertViews_of_ne {l : List DayRecord} {t : DayTuple} {e : DayRecord}
    (he : e ∈ l) (hne : e.date ≠ t.date) : e ∈ upsertViews l t := by
  unfold upsertViews
  by_cases hany : l.any (fun x => x.date = t.date) = true
  · rw [if_pos hany]
    exact List.mem_map.mpr ⟨e, he, by simp [hne]⟩
  · rw [if_neg hany]
    exact List.mem_append.mpr (Or.inl he)

theorem datesUnique_upsertClones {l : List DayRecord} (h : datesUnique l) (t : DayTuple) :
    datesUnique (upsertClones l t) := by
  unfold upsertClones
  by_cases hany : l.any (fun x => x.date = t.date) = true
  · rw [if_pos hany]
    unfold datesUnique
    rw [List.pairwise_map]
    have hdate : ∀ x : DayRecord,
        ((if x.date = t.date then { x with clones := t.count, clonesUniques := t.uniques }
          else x) : DayRecord).date = x.date := by
      intro x; by_cases hx : x.date = t.date <;> simp [hx]
    refine h.imp ?_
    intro a b hab
    rw [hdate a, hdate b]
    exact hab
  · rw [if_neg hany]
    unfold datesUnique
    rw [List.pairwise_append]
    refine ⟨h, by simp, ?_⟩
    intro a ha b hb
    have := List.any_eq_false.mp (Bool.not_eq_true _ ▸ hany) a ha
    simp at hb this
    rw [hb]
    simpa using this

theorem datesUnique_upsertViews {l : List DayRecord} (h : datesUnique l) (t : DayTuple) :
    datesUnique (upsertViews l t) := by
  unfold upsertViews
  by_cases hany : l.any (fun x => x.date = t.date) = true
  · rw [if_pos hany]
    unfold datesUnique
    rw [List.pairwise_map]
    have hdate : ∀ x : DayRecord,
        ((if x.date = t.date then { x with views := t.count, viewsUniques := t.uniques }
          else x) : DayRecord).date = x.date := by
      intro x; by_cases hx : x.date = t.date <;> simp [hx]
    refine h.imp ?_
    intro a b hab
    rw [hdate a, hdate b]
    exact hab
  · rw [if_neg hany]
    unfold datesUnique
    rw [List.pairwise_append]
    refine ⟨h, by simp, ?_⟩
    intro a ha b hb
    have := List.any_eq_false.mp (Bool.not_eq_true _ ▸ hany) a ha
    simp at hb this
    rw [hb]
    simpa using this

theorem datesUnique_foldl_upsertClones {l : List DayRecord} (h : datesUnique l)
    (ts : List DayTuple) : datesUnique (ts.foldl upsertClones l) := by
  induction ts generalizing l with
  | nil => exact h
  | cons t ts ih => exact ih (datesUnique_upsertClones h t)

theorem datesUnique_foldl_upsertViews {l : List DayRecord} (h : datesUnique l)
    (ts : List DayTuple) : datesUnique (ts.foldl upsertViews l) := by
  induction ts generalizing l with
  | nil => exact h
  | cons t ts ih => exact ih (datesUnique_upsertViews h t)

/-- A clones upsert leaves the views sum untouched. -/
theorem sumViews_upsertClones (l : List DayRecord) (t : DayTuple) :
    sumViews (upsertClones l t) = sumViews l := by
  unfold upsertClones
  by_cases hany : l.any (fun x => x.date = t.date) = true
  · rw [if_pos hany]
    unfold sumViews
    rw [List.map_map]
    congr 1
    refine List.map_congr_left ?_
    intro x _
    by_cases hd : x.date = t.date <;> simp [hd]
  · rw [if_neg hany, sumViews_append]
    simp [sumViews]

/-- A views upsert leaves the clones sum untouched. -/
theorem sumClones_upsertViews (l : List DayRecord) (t : DayTuple) :
    sumClones (upsertViews l t) = sumClones l := by
  unfold upsertViews
  by_cases hany : l.any (fun x => x.date = t.date) = true
  · rw [if_pos hany]
    unfold sumClones
    rw [List.map_map]
    congr 1
    refine List.map_congr_left ?_
    intro x _
    by_cases hd : x.date = t.date <;> simp [hd]
  · rw [if_neg hany, sumClones_append]
    simp [sumClones]

theorem sumViews_foldl_upsertClones (l : List DayRecord) (ts : List DayTuple) :
    sumViews (ts.foldl upsertClones l) = sumViews l := by
  induction ts generalizing l with
  | nil => rfl
  | cons t ts ih => rw [List.foldl_cons, ih, sumViews_upsertClones]

theorem sumClones_foldl_upsertViews (l : List DayRecord) (ts : List DayTuple) :
    sumClones (ts.foldl upsertViews l) = sumClones l := by
  induction ts generalizing l with
  | nil => rfl
  | cons t ts ih => rw [List.foldl_cons, ih, sumClones_upsertViews]

/-! ### buildByDate lemmas -/

theorem datesUnique_buildByDate (l : List DayRecord) : datesUnique (buildByDate l) := by
  have main : ∀ (l acc : List DayRecord), datesUnique acc →
      datesUnique (l.foldl
        (fun acc e =>
          if acc.any (fun x => x.date = e.date) then
            acc.map (fun x => if x.date = e.date then e else x)
          else acc ++ [e]) acc) := by
    intro l
    induction l with
    | nil => intro acc h; exact h
    | cons e l ih =>
        intro acc h
        rw [List.foldl_cons]
        apply ih
        by_cases hany : acc.any (fun x => x.date = e.date) = true
        · rw [if_pos hany]
          unfold datesUnique
          rw [List.pairwise_map]
          have hdate : ∀ x : DayRecord,
              ((if x.date = e.date then e else x) : DayRecord).date = x.date := by
            intro x; by_cases hx : x.date = e.date <;> simp [hx]
          refine h.imp ?_
          intro a b hab
          rw [hdate a, hdate b]; exact hab
        · rw [if_neg hany]
          unfold datesUnique
          rw [List.pairwise_append]
          refine ⟨h, by simp, ?_⟩
          intro a ha b hb
          have := List.any_eq_false.mp (Bool.not_eq_true _ ▸ hany) a ha
          simp at hb this
          rw [hb]; simpa using this
  exact main l [] (by simp [datesUnique])

theorem buildByDate_self {l : List DayRecord} (h : datesUnique l) : buildByDate l = l := by
  have main : ∀ (l acc : List DayRecord), datesUnique (acc ++ l) →
      l.foldl
        (fun acc e =>
          if acc.any (fun x => x.date = e.date) then
            acc.map (fun x => if x.date = e.date then e else x)
          else acc ++ [e]) acc = acc ++ l := by
    intro l
    induction l with
    | nil => intro acc _; simp
    | cons e l ih =>
        intro acc h
        rw [List.foldl_cons]
        have hnot : acc.any (fun x => x.date = e.date) = false := by
          rw [List.any_eq_false]
          intro x hx
          have := (List.pairwise_append.mp h).2.2 x hx e (by simp)
          simpa using this
        rw [if_neg (by simp [hnot])]
        have h' : datesUnique ((acc ++ [e]) ++ l) := by
          simpa [List.append_assoc] using h
        rw [ih (acc ++ [e]) h']
        simp
  have hmain := main l [] (by simpa using h)
  unfold buildByDate
  rw [hmain]
  simp

/-! ### Sort lemmas -/

theorem datesUnique_insertionSort {l : List DayRecord} (h : datesUnique l) :
    datesUnique (l.insertionSort byDateLe) := by
  unfold datesUnique at h ⊢
  exact ((List.perm_insertionSort byDateLe l).pairwise_iff
    (fun hxy => Ne.symm hxy)).mpr h

theorem strictSorted_of_sorted_unique {l : List DayRecord}
    (hs : l.Sorted byDateLe) (hu : datesUnique l) :
    l.Pairwise (fun a b => a.date < b.date) := by
  have hand := List.Pairwise.and hs hu
  exact hand.imp (fun h => Nat.lt_of_le_of_ne h.1 h.2)

/-! ### Reconciliation post-conditions -/

theorem reconcileRepo_history_eq (cutoff : Date) (r : RepoData) (f : FetchResult) :
    (reconcileRepo cutoff r f).history =
      ((upserted r f).insertionSort byDateLe).filter
        (fun e => !(decide (e.date < cutoff))) := by
  have h1 : (reconcileRepo cutoff r f).history =
      (agePartition cutoff r.legacyOffset ((upserted r f).insertionSort byDateLe)).2 := rfl
  rw [h1, agePartition_snd]

theorem datesUnique_upserted (r : RepoData) (f : FetchResult) : datesUnique (upserted r f) :=
  datesUnique_foldl_upsertViews
    (datesUnique_foldl_upsertClones (datesUnique_buildByDate r.history) f.clonesByDay)
    f.viewsByDay

theorem reconcileRepo_history_strictSorted (cutoff : Date) (r : RepoData) (f : FetchResult) :
    (reconcileRepo cutoff r f).history.Pairwise (fun a b => a.date < b.date) := by
  rw [reconcileRepo_history_eq]
  apply List.Pairwise.filter
  exact strictSorted_of_sorted_unique
    (List.sorted_insertionSort byDateLe (upserted r f))
    (datesUnique_insertionSort (datesUnique_upserted r f))

theorem reconcileRepo_history_unique (cutoff : Date) (r : RepoData) (f : FetchResult) :
    datesUnique (reconcileRepo cutoff r f).history :=
  (reconcileRepo_history_strictSorted cutoff r f).imp (fun h => Nat.ne_of_lt h)

theorem reconcileRepo_history_fresh (cutoff : Date) (r : RepoData) (f : FetchResult) :
    ∀ e ∈ (reconcileRepo cutoff r f).history, ¬ e.date < cutoff := by
  rw [reconcileRepo_history_eq]
  intro e he
  have := (List.mem_filter.mp he).2
  simpa using this

theorem reconcileRepo_totalsInv (cutoff : Date) (r : RepoData) (f : FetchResult) :
    totalsInv (reconcileRepo cutoff r f) :=
  ⟨rfl, rfl⟩

theorem reconcileRepo_totalClones_eq (cutoff : Date) (r : RepoData) (f : FetchResult) :
    (reconcileRepo cutoff r f).totalClones =
      r.legacyOffset.clones + sumClones (upserted r f) := by
  have h1 : (reconcileRepo cutoff r f).totalClones =
      (agePartition cutoff r.legacyOffset ((upserted r f).insertionSort byDateLe)).1.clones +
      sumClones (agePartition cutoff r.legacyOffset
        ((upserted r f).insertionSort byDateLe)).2 := rfl
  rw [h1, agePartition_lossless_clones]
  congr 1
  exact sumClones_perm (List.perm_insertionSort byDateLe (upserted r f))

theorem reconcileRepo_totalViews_eq (cutoff : Date) (r : RepoData) (f : FetchResult) :
    (reconcileRepo cutoff r f).totalViews =
      r.legacyOffset.views + sumViews (upserted r f) := by
  have h1 : (reconcileRepo cutoff r f).totalViews =
      (agePartition cutoff r.legacyOffset ((upserted r f).insertionSort byDateLe)).1.views +
      sumViews (agePartition cutoff r.legacyOffset
        ((upserted r f).insertionSort byDateLe)).2 := rfl
  rw [h1, agePartition_lossless_views]
  congr 1
  exact sumViews_perm (List.perm_insertionSort byDateLe (upserted r f))

theorem reconcileRepo_legacy_clones_le (cutoff : Date) (r : RepoData) (f : FetchResult) :
    r.legacyOffset.clones ≤ (reconcileRepo cutoff r f).legacyOffset.clones := by
  have h1 : (reconcileRepo cutoff r f).legacyOffset =
      (agePartition cutoff r.legacyOffset ((upserted r f).insertionSort byDateLe)).1 := rfl
  rw [h1, agePartition_fst_clones]
  exact Nat.le_add_right _ _

theorem reconcileRepo_legacy_views_le (cutoff : Date) (r : RepoData) (f : FetchResult) :
    r.legacyOffset.views ≤ (reconcileRepo cutoff r f).legacyOffset.views := by
  have h1 : (reconcileRepo cutoff r f).legacyOffset =
      (agePartition cutoff r.legacyOffset ((upserted r f).insertionSort byDateLe)).1 := rfl
  rw [h1, agePartition_fst_views]
  exact Nat.le_add_right _ _

/-! ### Monotonicity lemmas -/

/-- In a list with unique dates, a record is determined by its date. -/
theorem eq_of_datesUnique {l : List DayRecord} (h : datesUnique l) {x e : DayRecord}
    (hx : x ∈ l) (he : e ∈ l) (hd : x.date = e.date) : x = e := by
  induction l with
  | nil => cases hx
  | cons a l ih =>
      rcases List.pairwise_cons.mp h with ⟨ha, hl⟩
      rcases List.mem_cons.mp hx with rfl | hx' <;> rcases List.mem_cons.mp he with rfl | he'
      · rfl
      · exact absurd hd (ha e he')
      · exact absurd hd.symm (ha x hx')
      · exact ih hl hx' he'

/-- A single clones upsert cannot decrease the clones sum, provided the
incoming count is at least every stored count at that date. -/
theorem sumClones_le_upsertClones {l : List DayRecord} {t : DayTuple}
    (h : ∀ e ∈ l, e.date = t.date → e.clones ≤ t.count) :
    sumClones l ≤ sumClones (upsertClones l t) := by
  unfold upsertClones
  by_cases hany : l.any (fun x => x.date = t.date) = true
  · rw [if_pos hany]
    unfold sumClones
    rw [List.map_map]
    apply List.sum_le_sum
    intro x hx
    by_cases hd : x.date = t.date
    · simpa [hd] using h x hx hd
    · simp [hd]
  · rw [if_neg hany, sumClones_append]
    exact Nat.le_add_right _ _

theorem sumViews_le_upsertViews {l : List DayRecord} {t : DayTuple}
    (h : ∀ e ∈ l, e.date = t.date → e.views ≤ t.count) :
    sumViews l ≤ sumViews (upsertViews l t) := by
  unfold upsertViews
  by_cases hany : l.any (fun x => x.date = t.date) = true
  · rw [if_pos hany]
    unfold sumViews
    rw [List.map_map]
    apply List.sum_le_sum
    intro x hx
    by_cases hd : x.date = t.date
    · simpa [hd] using h x hx hd
    · simp [hd]
  · rw [if_neg hany, sumViews_append]
    exact Nat.le_add_right _ _

/-- The whole clones pass cannot decrease the clones sum when the fetched
window has one tuple per date and no count below the stored one. -/
theorem sumClones_le_foldl_upsertClones {l : List DayRecord} {ts : List DayTuple}
    (huniq : ts.Pairwise (fun a b => a.date ≠ b.date))
    (h : ∀ t ∈ ts, ∀ e ∈ l, e.date = t.date → e.clones ≤ t.count) :
    sumClones l ≤ sumClones (ts.foldl upsertClones l) := by
  induction ts generalizing l with
  | nil => exact Nat.le_refl _
  | cons t ts ih =>
      rw [List.foldl_cons]
      have step := sumClones_le_upsertClones (t := t)
        (fun e he hd => h t (List.mem_cons_self t ts) e he hd)
      refine Nat.le_trans step (ih (List.pairwise_cons.mp huniq).2 ?_)
      intro t' ht' e he hd
      rcases mem_upsertClones he with ⟨hel, _⟩ | hdd
      · exact h t' (List.mem_cons_of_mem _ ht') e hel hd
      · exact absurd (by rw [← hdd]; exact hd)
          ((List.pairwise_cons.mp huniq).1 t' ht')

theorem sumViews_le_foldl_upsertViews {l : List DayRecord} {ts : List DayTuple}
    (huniq : ts.Pairwise (fun a b => a.date ≠ b.date))
    (h : ∀ t ∈ ts, ∀ e ∈ l, e.date = t.date → e.views ≤ t.count) :
    sumViews l ≤ sumViews (ts.foldl upsertViews l) := by
  induction ts generalizing l with
  | nil => exact Nat.le_refl _
  | cons t ts ih =>
      rw [List.foldl_cons]
      have step := sumViews_le_upsertViews (t := t)
        (fun e he hd => h t (List.mem_cons_self t ts) e he hd)
      refine Nat.le_trans step (ih (List.pairwise_cons.mp huniq).2 ?_)
      intro t' ht' e he hd
      rcases mem_upsertViews he with ⟨hel, _⟩ | hdd
      · exact h t' (List.mem_cons_of_mem _ ht') e hel hd
      · exact absurd (by rw [← hdd]; exact hd)
          ((List.pairwise_cons.mp huniq).1 t' ht')

/-- Every record after a clones pass carries the views fields of some
original record at its date, or a zeroed views field (fresh insert). -/
theorem viewsOrigin_upsertClones {l : List DayRecord} {t : DayTuple} {e : DayRecord}
    (he : e ∈ upsertClones l t) :
    (∃ e0 ∈ l, e.date = e0.date ∧ e.views = e0.views) ∨ e.views = 0 := by
  unfold upsertClones at he
  by_cases hany : l.any (fun x => x.date = t.date) = true
  · rw [if_pos hany] at he
    rcases List.mem_map.mp he with ⟨x, hx, hfx⟩
    by_cases hd : x.date = t.date
    · left; exact ⟨x, hx, by rw [← hfx]; simp [hd], by rw [← hfx]; simp [hd]⟩
    · left; exact ⟨x, hx, by rw [← hfx]; simp [hd], by rw [← hfx]; simp [hd]⟩
  · rw [if_neg hany] at he
    rcases List.mem_append.mp he with h' | h'
    · left; exact ⟨e, h', rfl, rfl⟩
    · right; simp at h'; rw [h']

theorem viewsOrigin_foldl_upsertClones {l : List DayRecord} {ts : List DayTuple}
    {e : DayRecord} (he : e ∈ ts.foldl upsertClones l) :
    (∃ e0 ∈ l, e.date = e0.date ∧ e.views = e0.views) ∨ e.views = 0 := by
  induction ts generalizing l with
  | nil => exact Or.inl ⟨e, he, rfl, rfl⟩
  | cons t ts ih =>
      rw [List.foldl_cons] at he
      rcases ih he with ⟨e0, he0, hd, hv⟩ | hz
      · rcases viewsOrigin_upsertClones he0 with ⟨e1, he1, hd1, hv1⟩ | hz1
        · exact Or.inl ⟨e1, he1, hd.trans hd1, hv.trans hv1⟩
        · exact Or.inr (hv.trans hz1)
      · exact Or.inr hz

/-- The upserted map's clones sum dominates the original history's
(given unique dates in history and window, and no downward revision). -/
theorem sumClones_history_le_upserted {r : RepoData} {f : FetchResult}
    (hu : datesUnique r.history)
    (huc : f.clonesByDay.Pairwise (fun a b => a.date ≠ b.date))
    (hrev : ∀ t ∈ f.clonesByDay, ∀ e ∈ r.history, e.date = t.date → e.clones ≤ t.count) :
    sumClones r.history ≤ sumClones (upserted r f) := by
  unfold upserted
  rw [sumClones_foldl_upsertViews]
  rw [buildByDate_self hu]
  exact sumClones_le_foldl_upsertClones huc hrev

theorem sumViews_history_le_upserted {r : RepoData} {f : FetchResult}
    (hu : datesUnique r.history)
    (huv : f.viewsByDay.Pairwise (fun a b => a.date ≠ b.date))
    (hrev : ∀ t ∈ f.viewsByDay, ∀ e ∈ r.history, e.date = t.date → e.views ≤ t.count) :
    sumViews r.history ≤ sumViews (upserted r f) := by
  unfold upserted
  rw [buildByDate_self hu]
  refine Nat.le_trans (Nat.le_of_eq (sumViews_foldl_upsertClones r.history f.clonesByDay).symm) ?_
  refine sumViews_le_foldl_upsertViews huv ?_
  intro t ht e he hd
  rcases viewsOrigin_foldl_upsertClones he with ⟨e0, he0, hd0, hv0⟩ | hz
  · rw [hv0]
    exact hrev t ht e0 he0 (by rw [← hd0]; exact hd)
  · rw [hz]; exact Nat.zero_le _

/-! ### Identity and last-write lemmas -/

/-- An upsert that rewrites exactly the already-stored values is the
identity. -/
theorem upsertClones_eq_self {l : List DayRecord} {t : DayTuple}
    (hany : l.any (fun x => x.date = t.date) = true)
    (h : ∀ x ∈ l, x.date = t.date → x.clones = t.count ∧ x.clonesUniques = t.uniques) :
    upsertClones l t = l := by
  unfold upsertClones
  rw [if_pos hany]
  have hid : ∀ x ∈ l,
      ((if x.date = t.date then
        { x with clones := t.count, clonesUniques := t.uniques } else x) : DayRecord) = x := by
    intro x hx
    by_cases hd : x.date = t.date
    · rcases h x hx hd with ⟨h1, h2⟩
      obtain ⟨d, c, cu, v, vu⟩ := x
      simp only at h1 h2
      simp [hd, h1, h2]
    · simp [hd]
  rw [List.map_congr_left hid]
  exact List.map_id l

theorem upsertViews_eq_self {l : List DayRecord} {t : DayTuple}
    (hany : l.any (fun x => x.date = t.date) = true)
    (h : ∀ x ∈ l, x.date = t.date → x.views = t.count ∧ x.viewsUniques = t.uniques) :
    upsertViews l t = l := by
  unfold upsertViews
  rw [if_pos hany]
  have hid : ∀ x ∈ l,
      ((if x.date = t.date then
        { x with views := t.count, viewsUniques := t.uniques } else x) : DayRecord) = x := by
    intro x hx
    by_cases hd : x.date = t.date
    · rcases h x hx hd with ⟨h1, h2⟩
      obtain ⟨d, c, cu, v, vu⟩ := x
      simp only at h1 h2
      simp [hd, h1, h2]
    · simp [hd]
  rw [List.map_congr_left hid]
  exact List.map_id l

theorem foldl_upsertClones_eq_self {l : List DayRecord} {ts : List DayTuple}
    (h : ∀ t ∈ ts, l.any (fun x => x.date = t.date) = true ∧
        ∀ x ∈ l, x.date = t.date → x.clones = t.count ∧ x.clonesUniques = t.uniques) :
    ts.foldl upsertClones l = l := by
  induction ts with
  | nil => rfl
  | cons t ts ih =>
      rw [List.foldl_cons,
        upsertClones_eq_self (h t (List.mem_cons_self t ts)).1 (h t (List.mem_cons_self t ts)).2]
      exact ih (fun t' ht' => h t' (List.mem_cons_of_mem _ ht'))

theorem foldl_upsertViews_eq_self {l : List DayRecord} {ts : List DayTuple}
    (h : ∀ t ∈ ts, l.any (fun x => x.date = t.date) = true ∧
        ∀ x ∈ l, x.date = t.date → x.views = t.count ∧ x.viewsUniques = t.uniques) :
    ts.foldl upsertViews l = l := by
  induction ts with
  | nil => rfl
  | cons t ts ih =>
      rw [List.foldl_cons,
        upsertViews_eq_self (h t (List.mem_cons_self t ts)).1 (h t (List.mem_cons_self t ts)).2]
      exact ih (fun t' ht' => h t' (List.mem_cons_of_mem _ ht'))

/-- After one clones upsert there is a record at the tuple's date holding
exactly the tuple's count and uniques. -/
theorem exists_upsertClones_self (l : List DayRecord) (t : DayTuple) :
    ∃ e ∈ upsertClones l t,
      e.date = t.date ∧ e.clones = t.count ∧ e.clonesUniques = t.uniques := by
  unfold upsertClones
  by_cases hany : l.any (fun x => x.date = t.date) = true
  · rw [if_pos hany]
    rcases List.any_eq_true.mp hany with ⟨x, hx, hxd⟩
    simp only [decide_eq_true_eq] at hxd
    exact ⟨{ x with clones := t.count, clonesUniques := t.uniques },
      List.mem_map.mpr ⟨x, hx, by simp [hxd]⟩, hxd, rfl, rfl⟩
  · rw [if_neg hany]
    exact ⟨_, List.mem_append.mpr (Or.inr (List.mem_cons_self _ _)), rfl, rfl, rfl⟩

theorem exists_upsertViews_self (l : List DayRecord) (t : DayTuple) :
    ∃ e ∈ upsertViews l t,
      e.date = t.date ∧ e.views = t.count ∧ e.viewsUniques = t.uniques := by
  unfold upsertViews
  by_cases hany : l.any (fun x => x.date = t.date) = true
  · rw [if_pos hany]
    rcases List.any_eq_true.mp hany with ⟨x, hx, hxd⟩
    simp only [decide_eq_true_eq] at hxd
    exact ⟨{ x with views := t.count, viewsUniques := t.uniques },
      List.mem_map.mpr ⟨x, hx, by simp [hxd]⟩, hxd, rfl, rfl⟩
  · rw [if_neg hany]
    exact ⟨_, List.mem_append.mpr (Or.inr (List.mem_cons_self _ _)), rfl, rfl, rfl⟩

/-- A clones-field witness at date `d` survives a clones upsert at a
different date. -/
theorem clonesField_pres_upsertClones {l : List DayRecord} {t : DayTuple} {d : Date}
    {c u : Nat} (hne : d ≠ t.date)
    (h : ∃ e ∈ l, e.date = d ∧ e.clones = c ∧ e.clonesUniques = u) :
    ∃ e ∈ upsertClones l t, e.date = d ∧ e.clones = c ∧ e.clonesUniques = u := by
  rcases h with ⟨e, he, hd, hc, hu⟩
  exact ⟨e, mem_upsertClones_of_ne he (by rw [hd]; exact hne), hd, hc, hu⟩

theorem viewsField_pres_upsertViews {l : List DayRecord} {t : DayTuple} {d : Date}
    {c u : Nat} (hne : d ≠ t.date)
    (h : ∃ e ∈ l, e.date = d ∧ e.views = c ∧ e.viewsUniques = u) :
    ∃ e ∈ upsertViews l t, e.date = d ∧ e.views = c ∧ e.viewsUniques = u := by
  rcases h with ⟨e, he, hd, hc, hu⟩
  exact ⟨e, mem_upsertViews_of_ne he (by rw [hd]; exact hne), hd, hc, hu⟩

/-- A clones-field witness survives any views upsert (views upserts never
touch clones fields). -/
theorem clonesField_pres_upsertViews {l : List DayRecord} {t : DayTuple} {d : Date}
    {c u : Nat}
    (h : ∃ e ∈ l, e.date = d ∧ e.clones = c ∧ e.clonesUniques = u) :
    ∃ e ∈ upsertViews l t, e.date = d ∧ e.clones = c ∧ e.clonesUniques = u := by
  rcases h with ⟨e, he, hd, hc, hu⟩
  unfold upsertViews
  by_cases hany : l.any (fun x => x.date = t.date) = true
  · rw [if_pos hany]
    by_cases hdt : e.date = t.date
    · exact ⟨{ e with views := t.count, viewsUniques := t.uniques },
        List.mem_map.mpr ⟨e, he, by simp [hdt]⟩, hd, hc, hu⟩
    · exact ⟨e, List.mem_map.mpr ⟨e, he, by simp [hdt]⟩, hd, hc, hu⟩
  · rw [if_neg hany]
    exact ⟨e, List.mem_append.mpr (Or.inl he), hd, hc, hu⟩

theorem clonesField_pres_foldl_upsertClones {l : List DayRecord} {ts : List DayTuple}
    {d : Date} {c u : Nat} (hne : ∀ t ∈ ts, d ≠ t.date)
    (h : ∃ e ∈ l, e.date = d ∧ e.clones = c ∧ e.clonesUniques = u) :
    ∃ e ∈ ts.foldl upsertClones l, e.date = d ∧ e.clones = c ∧ e.clonesUniques = u := by
  induction ts generalizing l with
  | nil => exact h
  | cons t ts ih =>
      rw [List.foldl_cons]
      exact ih (fun t' ht' => hne t' (List.mem_cons_of_mem _ ht'))
        (clonesField_pres_upsertClones (hne t (List.mem_cons_self t ts)) h)

theorem viewsField_pres_foldl_upsertViews {l : List DayRecord} {ts : List DayTuple}
    {d : Date} {c u : Nat} (hne : ∀ t ∈ ts, d ≠ t.date)
    (h : ∃ e ∈ l, e.date = d ∧ e.views = c ∧ e.viewsUniques = u) :
    ∃ e ∈ ts.foldl upsertViews l, e.date = d ∧ e.views = c ∧ e.viewsUniques = u := by
  induction ts generalizing l with
  | nil => exact h
  | cons t ts ih =>
      rw [List.foldl_cons]
      exact ih (fun t' ht' => hne t' (List.mem_cons_of_mem _ ht'))
        (viewsField_pres_upsertViews (hne t (List.mem_cons_self t ts)) h)

theorem clonesField_pres_foldl_upsertViews {l : List DayRecord} {ts : List DayTuple}
    {d : Date} {c u : Nat}
    (h : ∃ e ∈ l, e.date = d ∧ e.clones = c ∧ e.clonesUniques = u) :
    ∃ e ∈ ts.foldl upsertViews l, e.date = d ∧ e.clones = c ∧ e.clonesUniques = u := by
  induction ts generalizing l with
  | nil => exact h
  | cons t ts ih =>
      rw [List.foldl_cons]
      exact ih (clonesField_pres_upsertViews h)

/-- Each fetched clones tuple (one tuple per date) ends up verbatim in
the upserted map. -/
theorem exists_clonesField_foldl_upsertClones {l : List DayRecord} {ts : List DayTuple}
    {t : DayTuple} (ht : t ∈ ts) (huniq : ts.Pairwise (fun a b => a.date ≠ b.date)) :
    ∃ e ∈ ts.foldl upsertClones l,
      e.date = t.date ∧ e.clones = t.count ∧ e.clonesUniques = t.uniques := by
  induction ts generalizing l with
  | nil => cases ht
  | cons t0 ts ih =>
      rw [List.foldl_cons]
      rcases List.mem_cons.mp ht with rfl | htts
      · exact clonesField_pres_foldl_upsertClones
          (fun t' ht' => (List.pairwise_cons.mp huniq).1 t' ht')
          (exists_upsertClones_self l t)
      · exact ih htts (List.pairwise_cons.mp huniq).2

theorem exists_viewsField_foldl_upsertViews {l : List DayRecord} {ts : List DayTuple}
    {t : DayTuple} (ht : t ∈ ts) (huniq : ts.Pairwise (fun a b => a.date ≠ b.date)) :
    ∃ e ∈ ts.foldl upsertViews l,
      e.date = t.date ∧ e.views = t.count ∧ e.viewsUniques = t.uniques := by
  induction ts generalizing l with
  | nil => cases ht
  | cons t0 ts ih =>
      rw [List.foldl_cons]
      rcases List.mem_cons.mp ht with rfl | htts
      · exact viewsField_pres_foldl_upsertViews
          (fun t' ht' => (List.pairwise_cons.mp huniq).1 t' ht')
          (exists_upsertViews_self l t)
      · exact ih htts (List.pairwise_cons.mp huniq).2

/-! ### find? characterisations (frame effects of the upsert) -/

theorem find?_map_of_pres {α : Type} {p : α → Bool} {f : α → α}
    (hf : ∀ x, p (f x) = p x) (l : List α) :
    (l.map f).find? p = (l.find? p).map f := by
  induction l with
  | nil => rfl
  | cons a l ih =>
      by_cases hpa : p a = true
      · rw [List.map_cons, List.find?_cons_of_pos _ (by rw [hf]; exact hpa),
          List.find?_cons_of_pos _ hpa, Option.map_some']
      · rw [List.map_cons, List.find?_cons_of_neg _ (by rw [hf]; exact hpa),
          List.find?_cons_of_neg _ hpa, ih]

theorem upsertClones_find?_some {l : List DayRecord} {t : DayTuple} {e : DayRecord}
    (h : l.find? (fun x => x.date = t.date) = some e) :
    (upsertClones l t).find? (fun x => x.date = t.date) =
      some { e with clones := t.count, clonesUniques := t.uniques } := by
  have hsome : (l.find? (fun x => decide (x.date = t.date))).isSome = true := by
    rw [h]; rfl
  have hany : l.any (fun x => x.date = t.date) = true :=
    List.any_eq_true.mpr (List.find?_isSome.mp hsome)
  unfold upsertClones
  rw [if_pos hany]
  rw [find?_map_of_pres (fun x => by by_cases hd : x.date = t.date <;> simp [hd]) l, h,
    Option.map_some']
  have hpe : e.date = t.date := by simpa using List.find?_some h
  simp [hpe]

theorem upsertViews_find?_some {l : List DayRecord} {t : DayTuple} {e : DayRecord}
    (h : l.find? (fun x => x.date = t.date) = some e) :
    (upsertViews l t).find? (fun x => x.date = t.date) =
      some { e with views := t.count, viewsUniques := t.uniques } := by
  have hsome : (l.find? (fun x => decide (x.date = t.date))).isSome = true := by
    rw [h]; rfl
  have hany : l.any (fun x => x.date = t.date) = true :=
    List.any_eq_true.mpr (List.find?_isSome.mp hsome)
  unfold upsertViews
  rw [if_pos hany]
  rw [find?_map_of_pres (fun x => by by_cases hd : x.date = t.date <;> simp [hd]) l, h,
    Option.map_some']
  have hpe : e.date = t.date := by simpa using List.find?_some h
  simp [hpe]

theorem upsertClones_find?_none {l : List DayRecord} {t : DayTuple}
    (h : l.find? (fun x => x.date = t.date) = none) :
    upsertClones l t =
      l ++ [{ date := t.date, clones := t.count, clonesUniques := t.uniques
            , views := 0, viewsUniques := 0 }] := by
  unfold upsertClones
  rw [if_neg]
  intro hany
  rcases List.any_eq_true.mp hany with ⟨x, hx, hxp⟩
  have hs : (l.find? (fun x => decide (x.date = t.date))).isSome = true :=
    List.find?_isSome.mpr ⟨x, hx, hxp⟩
  rw [h] at hs
  simp at hs

theorem upsertViews_find?_none {l : List DayRecord} {t : DayTuple}
    (h : l.find? (fun x => x.date = t.date) = none) :
    upsertViews l t =
      l ++ [{ date := t.date, clones := 0, clonesUniques := 0
            , views := t.count, viewsUniques := t.uniques }] := by
  unfold upsertViews
  rw [if_neg]
  intro hany
  rcases List.any_eq_true.mp hany with ⟨x, hx, hxp⟩
  have hs : (l.find? (fun x => decide (x.date = t.date))).isSome = true :=
    List.find?_isSome.mpr ⟨x, hx, hxp⟩
  rw [h] at hs
  simp at hs

/-! ### Idempotence of per-repository reconciliation -/

theorem sumClones_nil : sumClones [] = 0 := rfl

theorem sumViews_nil : sumViews [] = 0 := rfl

/-- Retention is the identity when every entry is inside the window. -/
theorem agePartition_of_fresh {cutoff : Date} {off : LegacyOffset} {l : List DayRecord}
    (h : ∀ e ∈ l, ¬ e.date < cutoff) : agePartition cutoff off l = (off, l) := by
  rw [agePartition_eq]
  have h1 : l.filter (fun e => decide (e.date < cutoff)) = [] :=
    List.filter_eq_nil_iff.mpr (fun a ha => by simpa using h a ha)
  have h2 : l.filter (fun e => !(decide (e.date < cutoff))) = l :=
    List.filter_eq_self.mpr (fun a ha => by simpa using h a ha)
  rw [h1, h2]
  simp [sumClones_nil, sumViews_nil]

/-- Each fetched clones tuple inside the window is stored verbatim in the
reconciled history. -/
theorem history_clones_tuple (cutoff : Date) (r : RepoData) {f : FetchResult} {t : DayTuple}
    (huc : f.clonesByDay.Pairwise (fun a b => a.date ≠ b.date))
    (ht : t ∈ f.clonesByDay) (hcut : ¬ t.date < cutoff) :
    ∃ e ∈ (reconcileRepo cutoff r f).history,
      e.date = t.date ∧ e.clones = t.count ∧ e.clonesUniques = t.uniques := by
  rw [reconcileRepo_history_eq]
  have hup : ∃ e ∈ upserted r f,
      e.date = t.date ∧ e.clones = t.count ∧ e.clonesUniques = t.uniques := by
    unfold upserted
    exact clonesField_pres_foldl_upsertViews (exists_clonesField_foldl_upsertClones ht huc)
  rcases hup with ⟨e, he, hd, hc, hu⟩
  refine ⟨e, List.mem_filter.mpr
    ⟨((List.perm_insertionSort byDateLe (upserted r f)).mem_iff).mpr he, ?_⟩, hd, hc, hu⟩
  simp [hd, hcut]

theorem history_views_tuple (cutoff : Date) (r : RepoData) {f : FetchResult} {t : DayTuple}
    (huv : f.viewsByDay.Pairwise (fun a b => a.date ≠ b.date))
    (ht : t ∈ f.viewsByDay) (hcut : ¬ t.date < cutoff) :
    ∃ e ∈ (reconcileRepo cutoff r f).history,
      e.date = t.date ∧ e.views = t.count ∧ e.viewsUniques = t.uniques := by
  rw [reconcileRepo_history_eq]
  have hup : ∃ e ∈ upserted r f,
      e.date = t.date ∧ e.views = t.count ∧ e.viewsUniques = t.uniques := by
    unfold upserted
    exact exists_viewsField_foldl_upsertViews ht huv
  rcases hup with ⟨e, he, hd, hc, hu⟩
  refine ⟨e, List.mem_filter.mpr
    ⟨((List.perm_insertionSort byDateLe (upserted r f)).mem_iff).mpr he, ?_⟩, hd, hc, hu⟩
  simp [hd, hcut]

/-- Reconciling a state the fetch window is already reflected in is the
identity. -/
theorem reconcileRepo_of_stable {cutoff : Date} {s : RepoData} {f : FetchResult}
    (hup : upserted s f = s.history)
    (hsorted : s.history.Sorted byDateLe)
    (hfresh : ∀ e ∈ s.history, ¬ e.date < cutoff)
    (hic : s.totalClones = s.legacyOffset.clones + sumClones s.history)
    (hiv : s.totalViews = s.legacyOffset.views + sumViews s.history)
    (hprs : s.totalPRs = f.prs) (hcom : s.totalCommits = f.commits) :
    reconcileRepo cutoff s f = s := by
  have h1 : reconcileRepo cutoff s f = {
      legacyOffset :=
        (agePartition cutoff s.legacyOffset ((upserted s f).insertionSort byDateLe)).1
    , history :=
        (agePartition cutoff s.legacyOffset ((upserted s f).insertionSort byDateLe)).2
    , totalClones :=
        (agePartition cutoff s.legacyOffset ((upserted s f).insertionSort byDateLe)).1.clones +
        sumClones (agePartition cutoff s.legacyOffset
          ((upserted s f).insertionSort byDateLe)).2
    , totalViews :=
        (agePartition cutoff s.legacyOffset ((upserted s f).insertionSort byDateLe)).1.views +
        sumViews (agePartition cutoff s.legacyOffset
          ((upserted s f).insertionSort byDateLe)).2
    , totalPRs := f.prs
    , totalCommits := f.commits } := rfl
  rw [h1, hup, List.Sorted.insertionSort_eq hsorted, agePartition_of_fresh hfresh]
  obtain ⟨⟨loc, lov⟩, tc, tv, tp, tm, hist⟩ := s
  simp only at hic hiv hprs hcom ⊢
  simp [hic, hiv, hprs, hcom]

/-- Re-running reconciliation with the same in-window fetch result is the
identity on the repository state. -/
theorem reconcileRepo_idem (cutoff : Date) (r : RepoData) (f : FetchResult)
    (huc : f.clonesByDay.Pairwise (fun a b => a.date ≠ b.date))
    (huv : f.viewsByDay.Pairwise (fun a b => a.date ≠ b.date))
    (hcc : ∀ t ∈ f.clonesByDay, ¬ t.date < cutoff)
    (hcv : ∀ t ∈ f.viewsByDay, ¬ t.date < cutoff) :
    reconcileRepo cutoff (reconcileRepo cutoff r f) f = reconcileRepo cutoff r f := by
  have huniq : datesUnique (reconcileRepo cutoff r f).history :=
    reconcileRepo_history_unique cutoff r f
  have hfresh := reconcileRepo_history_fresh cutoff r f
  have hsorted : (reconcileRepo cutoff r f).history.Sorted byDateLe :=
    (reconcileRepo_history_strictSorted cutoff r f).imp (fun h => Nat.le_of_lt h)
  have hcl : f.clonesByDay.foldl upsertClones (reconcileRepo cutoff r f).history =
      (reconcileRepo cutoff r f).history := by
    apply foldl_upsertClones_eq_self
    intro t ht
    obtain ⟨e, he, hd, hc, hu⟩ := history_clones_tuple cutoff r huc ht (hcc t ht)
    refine ⟨List.any_eq_true.mpr ⟨e, he, by simp [hd]⟩, ?_⟩
    intro x hx hxd
    have hxe : x = e := eq_of_datesUnique huniq hx he (by rw [hxd, hd])
    rw [hxe]
    exact ⟨hc, hu⟩
  have hvw : f.viewsByDay.foldl upsertViews (reconcileRepo cutoff r f).history =
      (reconcileRepo cutoff r f).history := by
    apply foldl_upsertViews_eq_self
    intro t ht
    obtain ⟨e, he, hd, hc, hu⟩ := history_views_tuple cutoff r huv ht (hcv t ht)
    refine ⟨List.any_eq_true.mpr ⟨e, he, by simp [hd]⟩, ?_⟩
    intro x hx hxd
    have hxe : x = e := eq_of_datesUnique huniq hx he (by rw [hxd, hd])
    rw [hxe]
    exact ⟨hc, hu⟩
  have hup : upserted (reconcileRepo cutoff r f) f = (reconcileRepo cutoff r f).history := by
    unfold upserted
    rw [buildByDate_self huniq, hcl, hvw]
  exact reconcileRepo_of_stable hup hsorted hfresh
    (reconcileRepo_totalsInv cutoff r f).1 (reconcileRepo_totalsInv cutoff r f).2 rfl rfl

/-! ### Ledger map (setRepo / getRepo / processRepos) lemmas -/

theorem mem_setRepo {m : List (String × RepoData)} {name : String} {r : RepoData}
    {p : String × RepoData} (h : p ∈ setRepo m name r) : p ∈ m ∨ p = (name, r) := by
  unfold setRepo at h
  by_cases hany : m.any (fun q => q.1 = name) = true
  · rw [if_pos hany] at h
    rcases List.mem_map.mp h with ⟨q, hq, hfq⟩
    by_cases hk : q.1 = name
    · right; rw [← hfq]; simp [hk]
    · left; rw [← hfq]; simpa [hk] using hq
  · rw [if_neg hany] at h
    rcases List.mem_append.mp h with h' | h'
    · left; exact h'
    · right; simpa using h'

theorem mem_setRepo_keyed {m : List (String × RepoData)} {name : String} {r : RepoData}
    {p : String × RepoData} (hp : p ∈ setRepo m name r) (hk : p.1 = name) :
    p = (name, r) := by
  unfold setRepo at hp
  by_cases hany : m.any (fun q => q.1 = name) = true
  · rw [if_pos hany] at hp
    rcases List.mem_map.mp hp with ⟨q, hq, hfq⟩
    by_cases hqk : q.1 = name
    · rw [← hfq]; simp [hqk]
    · exfalso
      rw [← hfq] at hk
      simp [hqk] at hk
  · rw [if_neg hany] at hp
    rcases List.mem_append.mp hp with h' | h'
    · exfalso
      have := List.any_eq_false.mp (Bool.not_eq_true _ ▸ hany) p h'
      simp at this
      exact this hk
    · simpa using h'

theorem setRepo_eq_self {m : List (String × RepoData)} {name : String} {v : RepoData}
    (hany : m.any (fun p => p.1 = name) = true)
    (h : ∀ p ∈ m, p.1 = name → p = (name, v)) : setRepo m name v = m := by
  unfold setRepo
  rw [if_pos hany]
  have hid : ∀ p ∈ m, ((if p.1 = name then (name, v) else p) : String × RepoData) = p := by
    intro p hp
    by_cases hk : p.1 = name
    · rw [if_pos hk]; exact (h p hp hk).symm
    · rw [if_neg hk]
  rw [List.map_congr_left hid]
  exact List.map_id m

theorem any_key_setRepo_pres {m : List (String × RepoData)} {name : String}
    {r : RepoData} {nm : String} (h : m.any (fun p => p.1 = nm) = true) :
    (setRepo m name r).any (fun p => p.1 = nm) = true := by
  unfold setRepo
  rcases List.any_eq_true.mp h with ⟨q, hq, hqk⟩
  simp only [decide_eq_true_eq] at hqk
  by_cases hany : m.any (fun p => p.1 = name) = true
  · rw [if_pos hany]
    apply List.any_eq_true.mpr
    by_cases hk : q.1 = name
    · exact ⟨(name, r), List.mem_map.mpr ⟨q, hq, by simp [hk]⟩, by simp [← hk, hqk]⟩
    · exact ⟨q, List.mem_map.mpr ⟨q, hq, by simp [hk]⟩, by simp [hqk]⟩
  · rw [if_neg hany]
    exact List.any_eq_true.mpr ⟨q, List.mem_append.mpr (Or.inl hq), by simp [hqk]⟩

theorem any_key_setRepo_self (m : List (String × RepoData)) (name : String) (r : RepoData) :
    (setRepo m name r).any (fun p => p.1 = name) = true := by
  unfold setRepo
  by_cases hany : m.any (fun p => p.1 = name) = true
  · rw [if_pos hany]
    rcases List.any_eq_true.mp hany with ⟨q, hq, hqk⟩
    simp only [decide_eq_true_eq] at hqk
    exact List.any_eq_true.mpr ⟨(name, r), List.mem_map.mpr ⟨q, hq, by simp [hqk]⟩, by simp⟩
  · rw [if_neg hany]
    exact List.any_eq_true.mpr ⟨(name, r), List.mem_append.mpr (Or.inr (by simp)), by simp⟩

/-- One step of the per-repository loop, as `processRepos` folds it. -/
theorem processRepos_cons (cutoff : Date) (fetch : String → Option EndpointResponses)
    (name : String) (repos : List String) (m : List (String × RepoData)) :
    processRepos cutoff fetch (name :: repos) m =
      processRepos cutoff fetch repos
        (match fetch name with
         | none => m
         | some resp =>
             setRepo m name
               (reconcileRepo cutoff ((getRepo m name).getD initRepo)
                 (fetchTrafficData resp))) := rfl

/-- An invariant established by reconciliation and holding initially is
preserved by the whole per-repository loop. -/
theorem processRepos_pres (P : RepoData → Prop) (cutoff : Date)
    (fetch : String → Option EndpointResponses)
    (hP : ∀ r f, P (reconcileRepo cutoff r f))
    (repos : List String) :
    ∀ {m : List (String × RepoData)}, (∀ p ∈ m, P p.2) →
      ∀ p ∈ processRepos cutoff fetch repos m, P p.2 := by
  induction repos with
  | nil => intro m hm; exact hm
  | cons name repos ih =>
      intro m hm
      rw [processRepos_cons]
      cases hf : fetch name with
      | none => exact ih hm
      | some resp =>
          apply ih
          intro p hp
          rcases mem_setRepo hp with h' | h'
          · exact hm p h'
          · rw [h']; exact hP _ _

theorem processRepos_any_pres (cutoff : Date) (fetch : String → Option EndpointResponses)
    (repos : List String) {m : List (String × RepoData)} {nm : String}
    (h : m.any (fun p => p.1 = nm) = true) :
    (processRepos cutoff fetch repos m).any (fun p => p.1 = nm) = true := by
  induction repos generalizing m with
  | nil => exact h
  | cons name repos ih =>
      rw [processRepos_cons]
      cases hf : fetch name with
      | none => exact ih h
      | some resp => exact ih (any_key_setRepo_pres h)

/-- Every repository in the processed list whose fetch resolved has a
ledger entry afterwards. -/
theorem processRepos_key_exists (cutoff : Date) (fetch : String → Option EndpointResponses)
    {repos : List String} {m : List (String × RepoData)} {name : String}
    (hn : name ∈ repos) {resp : EndpointResponses} (hf : fetch name = some resp) :
    (processRepos cutoff fetch repos m).any (fun p => p.1 = name) = true := by
  induction repos generalizing m with
  | nil => cases hn
  | cons name0 repos ih =>
      rw [processRepos_cons]
      rcases List.mem_cons.mp hn with ddd | hn'
      · subst ddd
        rw [hf]
        exact processRepos_any_pres cutoff fetch repos (any_key_setRepo_self m name _)
      · cases hf0 : fetch name0 with
        | none => exact ih hn'
        | some resp0 => exact ih hn'

/-- Entries whose key is not in the processed list are untouched. -/
theorem processRepos_untouched (cutoff : Date) (fetch : String → Option EndpointResponses)
    {repos : List String} {m : List (String × RepoData)} {name : String}
    (hn : name ∉ repos) :
    ∀ p ∈ processRepos cutoff fetch repos m, p.1 = name → p ∈ m := by
  induction repos generalizing m with
  | nil => intro p hp _; exact hp
  | cons name0 repos ih =>
      intro p hp hk
      rw [processRepos_cons] at hp
      have hn' : name ∉ repos := fun h => hn (List.mem_cons_of_mem _ h)
      have hne : name ≠ name0 := fun h => hn (h ▸ List.mem_cons_self name0 repos)
      cases hf0 : fetch name0 with
      | none => rw [hf0] at hp; exact ih hn' p hp hk
      | some resp0 =>
          rw [hf0] at hp
          rcases mem_setRepo (ih hn' p hp hk) with h' | h'
          · exact h'
          · exfalso
            rw [h'] at hk
            simp at hk
            exact hne hk.symm

/-- After the loop, every entry keyed by a processed repository whose
fetch resolved holds a reconciliation output for that repository's fetch
result. -/
theorem processRepos_processed (cutoff : Date) (fetch : String → Option EndpointResponses)
    {repos : List String} {m : List (String × RepoData)} {name : String}
    (hn : name ∈ repos) {resp : EndpointResponses} (hf : fetch name = some resp) :
    ∀ p ∈ processRepos cutoff fetch repos m, p.1 = name →
      ∃ r0, p.2 = reconcileRepo cutoff r0 (fetchTrafficData resp) := by
  induction repos generalizing m with
  | nil => cases hn
  | cons name0 repos ih =>
      intro p hp hk
      rw [processRepos_cons] at hp
      rcases List.mem_cons.mp hn with ddd | hn'
      · subst ddd
        rw [hf] at hp
        by_cases hrest : name ∈ repos
        · exact ih hrest p hp hk
        · have hpm := processRepos_untouched cutoff fetch hrest p hp hk
          have hpe := mem_setRepo_keyed hpm hk
          exact ⟨(getRepo m name).getD initRepo, by rw [hpe]⟩
      · cases hf0 : fetch name0 with
        | none => rw [hf0] at hp; exact ih hn' p hp hk
        | some resp0 => rw [hf0] at hp; exact ih hn' p hp hk

/-- The per-repository loop is the identity when each processed entry is
already a fixed point of its reconciliation. -/
theorem processRepos_fixed (cutoff : Date) (fetch : String → Option EndpointResponses)
    {repos : List String} {m : List (String × RepoData)}
    (hdup : valuesByKey m)
    (hmem : ∀ name ∈ repos, ∀ resp, fetch name = some resp →
       m.any (fun p => p.1 = name) = true)
    (hfix : ∀ name ∈ repos, ∀ resp, fetch name = some resp →
       ∀ p ∈ m, p.1 = name → reconcileRepo cutoff p.2 (fetchTrafficData resp) = p.2) :
    processRepos cutoff fetch repos m = m := by
  induction repos with
  | nil => rfl
  | cons name repos ih =>
      rw [processRepos_cons]
      cases hf : fetch name with
      | none =>
          exact ih (fun nm hnm => hmem nm (List.mem_cons_of_mem _ hnm))
            (fun nm hnm => hfix nm (List.mem_cons_of_mem _ hnm))
      | some resp =>
          have hany := hmem name (List.mem_cons_self name repos) resp hf
          have hsome : (m.find? (fun p => decide (p.1 = name))).isSome = true :=
            List.find?_isSome.mpr (List.any_eq_true.mp hany)
          obtain ⟨q, hq⟩ := Option.isSome_iff_exists.mp hsome
          have hqm : q ∈ m := List.mem_of_find?_eq_some hq
          have hqk : q.1 = name := by simpa using List.find?_some hq
          have hget : getRepo m name = some q.2 := by
            unfold getRepo; rw [hq]; rfl
          have hrec : reconcileRepo cutoff q.2 (fetchTrafficData resp) = q.2 :=
            hfix name (List.mem_cons_self name repos) resp hf q hqm hqk
          have hset : setRepo m name
              (reconcileRepo cutoff ((getRepo m name).getD initRepo)
                (fetchTrafficData resp)) = m := by
            rw [hget]
            show setRepo m name (reconcileRepo cutoff q.2 (fetchTrafficData resp)) = m
            rw [hrec]
            apply setRepo_eq_self hany
            intro p hp hk
            have hv : p.2 = q.2 := hdup p hp q hqm (by rw [hk, hqk])
            obtain ⟨a, b⟩ := p
            simp only at hk hv
            rw [hk, hv]
          show processRepos cutoff fetch repos
            (setRepo m name
              (reconcileRepo cutoff ((getRepo m name).getD initRepo)
                (fetchTrafficData resp))) = m
          rw [hset]
          exact ih (fun nm hnm => hmem nm (List.mem_cons_of_mem _ hnm))
            (fun nm hnm => hfix nm (List.mem_cons_of_mem _ hnm))

/-- `setRepo` preserves key-to-value determinacy. -/
theorem valuesByKey_setRepo {m : List (String × RepoData)} (h : valuesByKey m)
    (name : String) (r : RepoData) : valuesByKey (setRepo m name r) := by
  intro p hp q hq hk
  by_cases hpn : p.1 = name
  · rw [mem_setRepo_keyed hp hpn, mem_setRepo_keyed hq (by rw [← hk]; exact hpn)]
  · rcases mem_setRepo hp with hp' | hp'
    · rcases mem_setRepo hq with hq' | hq'
      · exact h p hp' q hq' hk
      · exfalso; rw [hq'] at hk; exact hpn (by simpa using hk)
    · exact absurd (by rw [hp']) hpn

theorem valuesByKey_processRepos (cutoff : Date) (fetch : String → Option EndpointResponses)
    (repos : List String) {m : List (String × RepoData)} (h : valuesByKey m) :
    valuesByKey (processRepos cutoff fetch repos m) := by
  induction repos generalizing m with
  | nil => exact h
  | cons name repos ih =>
      rw [processRepos_cons]
      cases hf : fetch name with
      | none => exact ih h
      | some resp => exact ih (valuesByKey_setRepo h name _)

/-! ### runMain structure lemmas -/

theorem migrateLedger_schemaVersion_not_lt (L : Ledger) :
    ¬ (migrateLedger L).schemaVersion < SCHEMA_VERSION := by
  unfold migrateLedger
  by_cases h : L.schemaVersion < SCHEMA_VERSION
  · rw [if_pos h]
    simp [SCHEMA_VERSION]
  · rw [if_neg h]
    exact h

theorem migrateLedger_eq_self {L : Ledger} (h : ¬ L.schemaVersion < SCHEMA_VERSION) :
    migrateLedger L = L := by
  unfold migrateLedger
  rw [if_neg h]

theorem runMain_repositories (cutoff : Date) (now : String) (repos : List String)
    (fetch : String → Option EndpointResponses) (L : Ledger) :
    (runMain cutoff now repos fetch L).repositories =
      processRepos cutoff fetch repos (migrateLedger L).repositories := rfl

theorem runMain_schemaVersion (cutoff : Date) (now : String) (repos : List String)
    (fetch : String → Option EndpointResponses) (L : Ledger) :
    (runMain cutoff now repos fetch L).schemaVersion = (migrateLedger L).schemaVersion := rfl

theorem runMain_totalClones (cutoff : Date) (now : String) (repos : List String)
    (fetch : String → Option EndpointResponses) (L : Ledger) :
    (runMain cutoff now repos fetch L).totalClones =
      (((runMain cutoff now repos fetch L).repositories).map
        (fun p => p.2.totalClones)).sum := by
  have h : (runMain cutoff now repos fetch L).totalClones =
      (processRepos cutoff fetch repos (migrateLedger L).repositories).foldl
        (fun s p => s + p.2.totalClones) 0 := rfl
  rw [h, foldl_add_eq_sum, runMain_repositories]
  simp

theorem runMain_totalViews (cutoff : Date) (now : String) (repos : List String)
    (fetch : String → Option EndpointResponses) (L : Ledger) :
    (runMain cutoff now repos fetch L).totalViews =
      (((runMain cutoff now repos fetch L).repositories).map
        (fun p => p.2.totalViews)).sum := by
  have h : (runMain cutoff now repos fetch L).totalViews =
      (processRepos cutoff fetch repos (migrateLedger L).repositories).foldl
        (fun s p => s + p.2.totalViews) 0 := rfl
  rw [h, foldl_add_eq_sum, runMain_repositories]
  simp

theorem runMain_totalPRs (cutoff : Date) (now : String) (repos : List String)
    (fetch : String → Option EndpointResponses) (L : Ledger) :
    (runMain cutoff now repos fetch L).totalPRs =
      (((runMain cutoff now repos fetch L).repositories).map
        (fun p => p.2.totalPRs)).sum := by
  have h : (runMain cutoff now repos fetch L).totalPRs =
      (processRepos cutoff fetch repos (migrateLedger L).repositories).foldl
        (fun s p => s + p.2.totalPRs) 0 := rfl
  rw [h, foldl_add_eq_sum, runMain_repositories]
  simp

theorem runMain_totalCommits (cutoff : Date) (now : String) (repos : List String)
    (fetch : String → Option EndpointResponses) (L : Ledger) :
    (runMain cutoff now repos fetch L).totalCommits =
      (((runMain cutoff now repos fetch L).repositories).map
        (fun p => p.2.totalCommits)).sum := by
  have h : (runMain cutoff now repos fetch L).totalCommits =
      (processRepos cutoff fetch repos (migrateLedger L).repositories).foldl
        (fun s p => s + p.2.totalCommits) 0 := rfl
  rw [h, foldl_add_eq_sum, runMain_repositories]
  simp

theorem runMain_totalContributions (cutoff : Date) (now : String) (repos : List String)
    (fetch : String → Option EndpointResponses) (L : Ledger) :
    (runMain cutoff now repos fetch L).totalContributions =
      (runMain cutoff now repos fetch L).totalCommits +
      (runMain cutoff now repos fetch L).totalPRs * 10 := rfl

/-! ### Key-uniqueness machinery -/

theorem eq_of_keysUnique {m : List (String × RepoData)}
    (h : m.Pairwise (fun a b => a.1 ≠ b.1)) {p q : String × RepoData}
    (hp : p ∈ m) (hq : q ∈ m) (hk : p.1 = q.1) : p = q := by
  induction m with
  | nil => cases hp
  | cons a l ih =>
      rcases List.pairwise_cons.mp h with ⟨ha, hl⟩
      rcases List.mem_cons.mp hp with rfl | hp' <;> rcases List.mem_cons.mp hq with rfl | hq'
      · rfl
      · exact absurd hk (ha q hq')
      · exact absurd hk.symm (ha p hp')
      · exact ih hl hp' hq'

theorem valuesByKey_of_nodupKeys {m : List (String × RepoData)}
    (h : (m.map Prod.fst).Nodup) : valuesByKey m := by
  have h' : m.Pairwise (fun a b => a.1 ≠ b.1) := List.pairwise_map.mp h
  intro p hp q hq hk
  rw [eq_of_keysUnique h' hp hq hk]

theorem nodupKeys_setRepo {m : List (String × RepoData)}
    (h : (m.map Prod.fst).Nodup) (name : String) (r : RepoData) :
    ((setRepo m name r).map Prod.fst).Nodup := by
  unfold setRepo
  by_cases hany : m.any (fun p => p.1 = name) = true
  · rw [if_pos hany]
    have hkeys : (m.map (fun p => if p.1 = name then (name, r) else p)).map Prod.fst =
        m.map Prod.fst := by
      rw [List.map_map]
      apply List.map_congr_left
      intro p _
      by_cases hk : p.1 = name <;> simp [hk]
    rw [hkeys]
    exact h
  · rw [if_neg hany, List.map_append]
    rw [List.nodup_append]
    refine ⟨h, by simp, ?_⟩
    intro a ha hb
    simp at hb
    rcases List.mem_map.mp ha with ⟨p, hp, hpk⟩
    have := List.any_eq_false.mp (Bool.not_eq_true _ ▸ hany) p hp
    simp at this
    exact this (by rw [hpk, hb])

theorem nodupKeys_processRepos (cutoff : Date) (fetch : String → Option EndpointResponses)
    (repos : List String) {m : List (String × RepoData)}
    (h : (m.map Prod.fst).Nodup) :
    ((processRepos cutoff fetch repos m).map Prod.fst).Nodup := by
  induction repos generalizing m with
  | nil => exact h
  | cons name repos ih =>
      rw [processRepos_cons]
      cases hf : fetch name with
      | none => exact ih h
      | some resp => exact ih (nodupKeys_setRepo h name _)

theorem keys_migrateLedger (L : Ledger) :
    ((migrateLedger L).repositories).map Prod.fst = (L.repositories).map Prod.fst := by
  unfold migrateLedger
  by_cases h : L.schemaVersion < SCHEMA_VERSION
  · rw [if_pos h]
    simp [List.map_map]
  · rw [if_neg h]

/-! ## Claim theorems -/

/-- C7: during retention, every history entry dated strictly before the
cutoff has its clones and views counts added to `legacyOffset` (never
subtracted or overwritten) before the entry is removed, the retained
entries are exactly those at or after the cutoff, and the all-time total
(offset plus history sum) is unchanged by the aging step. -/
theorem c7_retention_lossless (cutoff : Date) (off : LegacyOffset) (l : List DayRecord) :
    (agePartition cutoff off l).1.clones =
      off.clones + sumClones (l.filter (fun e => e.date < cutoff)) ∧
    (agePartition cutoff off l).1.views =
      off.views + sumViews (l.filter (fun e => e.date < cutoff)) ∧
    (agePartition cutoff off l).2 = l.filter (fun e => !(decide (e.date < cutoff))) ∧
    (agePartition cutoff off l).1.clones + sumClones (agePartition cutoff off l).2 =
      off.clones + sumClones l ∧
    (agePartition cutoff off l).1.views + sumViews (agePartition cutoff off l).2 =
      off.views + sumViews l :=
  ⟨agePartition_fst_clones cutoff off l, agePartition_fst_views cutoff off l,
   agePartition_snd cutoff off l, agePartition_lossless_clones cutoff off l,
   agePartition_lossless_views cutoff off l⟩

/-- C8: upserting a fetched tuple for one windowed metric leaves every
record at another date untouched; when a record at the tuple's date
exists, only that metric's count/uniques fields are overwritten (the
other metric's fields are carried over); when none exists, a new record
is appended with the fetched metric populated and the other metric
zeroed. -/
theorem c8_upsert_frame (l : List DayRecord) (t : DayTuple) :
    (∀ e ∈ l, e.date ≠ t.date → e ∈ upsertClones l t ∧ e ∈ upsertViews l t) ∧
    (∀ e, l.find? (fun x => x.date = t.date) = some e →
      (upsertClones l t).find? (fun x => x.date = t.date) =
        some { e with clones := t.count, clonesUniques := t.uniques } ∧
      (upsertViews l t).find? (fun x => x.date = t.date) =
        some { e with views := t.count, viewsUniques := t.uniques }) ∧
    (l.find? (fun x => x.date = t.date) = none →
      upsertClones l t = l ++
        [{ date := t.date, clones := t.count, clonesUniques := t.uniques
         , views := 0, viewsUniques := 0 }] ∧
      upsertViews l t = l ++
        [{ date := t.date, clones := 0, clonesUniques := 0
         , views := t.count, viewsUniques := t.uniques }]) :=
  ⟨fun _ he hne => ⟨mem_upsertClones_of_ne he hne, mem_upsertViews_of_ne he hne⟩,
   fun _ he => ⟨upsertClones_find?_some he, upsertViews_find?_some he⟩,
   fun hn => ⟨upsertClones_find?_none hn, upsertViews_find?_none hn⟩⟩

/-- Witness for C8 at a concrete history and tuples: date 5 exists and is
overwritten in place (views fields kept), date 6 does not and is
appended with zeroed clones fields. -/
theorem c8_upsert_frame_witness :
    (upsertClones [{ date := 5, clones := 1, clonesUniques := 1, views := 7, viewsUniques := 2 }]
        { date := 5, count := 9, uniques := 3 }).find? (fun x => x.date = 5) =
      some { date := 5, clones := 9, clonesUniques := 3, views := 7, viewsUniques := 2 } ∧
    upsertViews [{ date := 5, clones := 1, clonesUniques := 1, views := 7, viewsUniques := 2 }]
        { date := 6, count := 9, uniques := 3 } =
      [{ date := 5, clones := 1, clonesUniques := 1, views := 7, viewsUniques := 2 },
       { date := 6, clones := 0, clonesUniques := 0, views := 9, viewsUniques := 3 }] :=
  ⟨((c8_upsert_frame
      [{ date := 5, clones := 1, clonesUniques := 1, views := 7, viewsUniques := 2 }]
      { date := 5, count := 9, uniques := 3 }).2.1
      { date := 5, clones := 1, clonesUniques := 1, views := 7, viewsUniques := 2 }
      (by decide)).1,
   ((c8_upsert_frame
      [{ date := 5, clones := 1, clonesUniques := 1, views := 7, viewsUniques := 2 }]
      { date := 6, count := 9, uniques := 3 }).2.2 (by decide)).2⟩

/-- C9 (amended): for every entity that is successfully reconciled in a
run, its history afterwards has at most one record per date, is sorted
strictly ascending by date, and has no record dated before the cutoff;
entities skipped on fetch failure keep their prior history (see the
counterexample). -/
theorem c9_history_invariants (cutoff : Date) (r : RepoData) (f : FetchResult) :
    datesUnique (reconcileRepo cutoff r f).history ∧
    (reconcileRepo cutoff r f).history.Pairwise (fun a b => a.date < b.date) ∧
    ∀ e ∈ (reconcileRepo cutoff r f).history, ¬ e.date < cutoff :=
  ⟨reconcileRepo_history_unique cutoff r f,
   reconcileRepo_history_strictSorted cutoff r f,
   reconcileRepo_history_fresh cutoff r f⟩

/-- Witness for C9 on a concrete reconciliation: the produced history is
strictly sorted, and its record at date 150 is inside the window. -/
theorem c9_history_invariants_witness :
    (reconcileRepo 100 initRepo monoFetch).history.Pairwise (fun a b => a.date < b.date) ∧
    ¬ ({ date := 150, clones := 6, clonesUniques := 2
       , views := 7, viewsUniques := 1 } : DayRecord).date < 100 :=
  ⟨(c9_history_invariants 100 initRepo monoFetch).2.1,
   (c9_history_invariants 100 initRepo monoFetch).2.2 _ (by decide)⟩

/-- Counterexample to C9 as stated: in a run where the entity's fetch
fails (network error), the entity is skipped, so a history record far
older than today minus the retention period survives the run. -/
theorem c9_stale_history_counterexample :
    ∃ p ∈ (runMain 100 "t" ["a"] (fun _ => none) staleLedger).repositories,
      ∃ e ∈ p.2.history, e.date < 100 := by
  decide

/-- C10: after all entities are processed, each global total equals the
fresh sum of the corresponding per-entity totals over all ledger
entries, and `totalContributions = totalCommits + totalPRs × 10`. -/
theorem c10_global_totals (cutoff : Date) (now : String) (repos : List String)
    (fetch : String → Option EndpointResponses) (L : Ledger) :
    (runMain cutoff now repos fetch L).totalClones =
      (((runMain cutoff now repos fetch L).repositories).map
        (fun p => p.2.totalClones)).sum ∧
    (runMain cutoff now repos fetch L).totalViews =
      (((runMain cutoff now repos fetch L).repositories).map
        (fun p => p.2.totalViews)).sum ∧
    (runMain cutoff now repos fetch L).totalPRs =
      (((runMain cutoff now repos fetch L).repositories).map
        (fun p => p.2.totalPRs)).sum ∧
    (runMain cutoff now repos fetch L).totalCommits =
      (((runMain cutoff now repos fetch L).repositories).map
        (fun p => p.2.totalCommits)).sum ∧
    (runMain cutoff now repos fetch L).totalContributions =
      (runMain cutoff now repos fetch L).totalCommits +
      (runMain cutoff now repos fetch L).totalPRs * 10 :=
  ⟨runMain_totalClones cutoff now repos fetch L,
   runMain_totalViews cutoff now repos fetch L,
   runMain_totalPRs cutoff now repos fetch L,
   runMain_totalCommits cutoff now repos fetch L,
   runMain_totalContributions cutoff now repos fetch L⟩

/-- C2 (amended): a network error (rejected promise) is caught and skips
the entity, leaving its ledger entry exactly as it was (and creating no
entry for a new repository), and the loop proceeds with the remaining
entities; but a non-success HTTP response is NOT a skip: `makeRequest`
resolves with null data, the entity is reconciled against an empty
window, and its `totalPRs` / `totalCommits` are overwritten with 0. -/
theorem c2_fetch_failure_behavior (cutoff : Date) (entry : Option RepoData) (r : RepoData) :
    processEntry cutoff entry none = entry ∧
    (∀ (m : List (String × RepoData)) (name : String) (repos : List String)
       (fetch : String → Option EndpointResponses), fetch name = none →
       processRepos cutoff fetch (name :: repos) m = processRepos cutoff fetch repos m) ∧
    processEntry cutoff (some r) (some noDataResponses) =
      some (reconcileRepo cutoff r (fetchTrafficData noDataResponses)) ∧
    (reconcileRepo cutoff r (fetchTrafficData noDataResponses)).totalPRs = 0 ∧
    (reconcileRepo cutoff r (fetchTrafficData noDataResponses)).totalCommits = 0 := by
  refine ⟨rfl, ?_, rfl, rfl, rfl⟩
  intro m name repos fetch hf
  rw [processRepos_cons, hf]

/-- Witness for C2 at concrete inputs: a skipped entity is preserved
verbatim, and a failing head of the repository list does not stop the
loop from processing the tail. -/
theorem c2_fetch_failure_witness :
    processEntry 100 (some repoWithPRs) none = some repoWithPRs ∧
    processRepos 100 (fun _ => none) ["a", "b"] freshLedger.repositories =
      processRepos 100 (fun _ => none) ["b"] freshLedger.repositories :=
  ⟨(c2_fetch_failure_behavior 100 (some repoWithPRs) repoWithPRs).1,
   (c2_fetch_failure_behavior 100 (some repoWithPRs) repoWithPRs).2.1
     freshLedger.repositories "a" ["b"] (fun _ => none) rfl⟩

/-- Counterexample to C2 as stated: when every endpoint answers with a
non-success status (resolved null data, not a rejection), the entity is
not skipped — its prior `totalPRs = 7` and `totalCommits = 5` are
zero-written, so the prior state is not preserved. -/
theorem c2_zero_write_counterexample :
    (processEntry 100 (some repoWithPRs) (some noDataResponses)).map
      (fun r => r.totalPRs) = some 0 ∧
    (processEntry 100 (some repoWithPRs) (some noDataResponses)).map
      (fun r => r.totalCommits) = some 0 ∧
    repoWithPRs.totalPRs = 7 ∧ repoWithPRs.totalCommits = 5 ∧
    processEntry 100 (some repoWithPRs) (some noDataResponses) ≠ some repoWithPRs := by
  decide

/-- C3 (amended): migrating a below-current-schema ledger maps every
entity to `legacyOffset = (totalClones, totalViews)` with empty history,
and resets `totalClones`/`totalViews` to 0 — they are NOT recomputed
during migration; the totals are recomputed to the preserved value only
at the entity's next successful reconciliation (here: an empty fetch
window). -/
theorem c3_migration (L : Ledger) (hv : L.schemaVersion < SCHEMA_VERSION) :
    (migrateLedger L).repositories = L.repositories.map (fun p => (p.1, migrateRepo p.2)) ∧
    ∀ r : RepoData,
      (migrateRepo r).legacyOffset.clones = r.totalClones ∧
      (migrateRepo r).legacyOffset.views = r.totalViews ∧
      (migrateRepo r).history = [] ∧
      (migrateRepo r).totalClones = 0 ∧
      (migrateRepo r).totalViews = 0 ∧
      ∀ (cutoff : Date) (prs commits : Nat),
        (reconcileRepo cutoff (migrateRepo r)
          { clonesByDay := [], viewsByDay := [], prs := prs, commits := commits }).totalClones =
          r.totalClones ∧
        (reconcileRepo cutoff (migrateRepo r)
          { clonesByDay := [], viewsByDay := [], prs := prs, commits := commits }).totalViews =
          r.totalViews := by
  constructor
  · unfold migrateLedger
    rw [if_pos hv]
  · intro r
    exact ⟨rfl, rfl, rfl, rfl, rfl, fun cutoff prs commits => ⟨rfl, rfl⟩⟩

/-- Witness for C3 at a concrete pre-v2 ledger: the migration snapshot
and the recomputation at the following (empty) reconcile. -/
theorem c3_migration_witness :
    (migrateLedger legacyLedger).repositories =
      legacyLedger.repositories.map (fun p => (p.1, migrateRepo p.2)) ∧
    (reconcileRepo 100 (migrateRepo monoRepo)
      { clonesByDay := [], viewsByDay := [], prs := 0, commits := 0 }).totalClones =
      monoRepo.totalClones :=
  ⟨(c3_migration legacyLedger (by decide)).1,
   (((c3_migration legacyLedger (by decide)).2 monoRepo).2.2.2.2.2 100 0 0).1⟩

/-- Counterexample to C3 as stated: immediately after migrating a ledger
whose entity had `totalClones = 120`, the entity's `legacyOffset.clones`
is 120 and its history is empty, but `totalClones` is 0, not 120 — the
recomputation happens only at the next successful reconcile. -/
theorem c3_migration_counterexample :
    ∃ p ∈ (migrateLedger legacyLedger).repositories,
      p.2.legacyOffset.clones = 120 ∧ p.2.history = [] ∧
      p.2.totalClones = 0 ∧ p.2.totalClones ≠ 120 := by
  decide

/-- Every entry of the per-repository loop's result is either the output
of a reconciliation performed in this loop or an entry of the input map,
carried over verbatim. -/
theorem processRepos_mem_or (cutoff : Date) (fetch : String → Option EndpointResponses)
    (repos : List String) {m : List (String × RepoData)} :
    ∀ p ∈ processRepos cutoff fetch repos m,
      (∃ r f, p.2 = reconcileRepo cutoff r f) ∨ p ∈ m := by
  induction repos generalizing m with
  | nil => intro p hp; exact Or.inr hp
  | cons name repos ih =>
      intro p hp
      rw [processRepos_cons] at hp
      cases hf : fetch name with
      | none =>
          rw [hf] at hp
          exact ih p hp
      | some resp =>
          rw [hf] at hp
          rcases ih p hp with h' | h'
          · exact Or.inl h'
          · rcases mem_setRepo h' with h'' | h''
            · exact Or.inr h''
            · exact Or.inl ⟨(getRepo m name).getD initRepo, fetchTrafficData resp,
                by rw [h'']⟩

/-- C1 (amended): the output of every reconciliation satisfies
`total = legacyOffset + Σ history` unconditionally, and after a run on a
ledger already at the current schema version, every entity entry either
is such a reconciliation output (entity reconciled this run) or is an
entry of the pre-run ledger carried over verbatim (entity skipped on
fetch failure) — hence satisfies the equality whenever it did before
the run.  A migration run can break the equality for an entity whose
fetch fails (see the counterexample). -/
theorem c1_totals_invariant (cutoff : Date) (now : String) (repos : List String)
    (fetch : String → Option EndpointResponses) (L : Ledger)
    (hv : ¬ L.schemaVersion < SCHEMA_VERSION) :
    (∀ (r : RepoData) (f : FetchResult), totalsInv (reconcileRepo cutoff r f)) ∧
    ∀ p ∈ (runMain cutoff now repos fetch L).repositories,
      totalsInv p.2 ∨ p ∈ L.repositories := by
  refine ⟨fun r f => reconcileRepo_totalsInv cutoff r f, ?_⟩
  intro p hp
  rw [runMain_repositories, migrateLedger_eq_self hv] at hp
  rcases processRepos_mem_or cutoff fetch repos p hp with ⟨r, f, hrf⟩ | hm
  · left
    rw [hrf]
    exact reconcileRepo_totalsInv cutoff r f
  · right
    exact hm

/-- Witness for C1: a concrete reconciliation output satisfies the
equality unconditionally, and the entry of a current-schema run that
skipped its only entity is carried over from the pre-run ledger. -/
theorem c1_totals_invariant_witness :
    totalsInv (reconcileRepo 100 monoRepo monoFetch) ∧
    (totalsInv (("r1", initRepo) : String × RepoData).2 ∨
      ("r1", initRepo) ∈ freshLedger.repositories) :=
  ⟨(c1_totals_invariant 100 "now" ["r1"] (fun _ => none) freshLedger (by decide)).1
      monoRepo monoFetch,
   (c1_totals_invariant 100 "now" ["r1"] (fun _ => none) freshLedger (by decide)).2
      ("r1", initRepo) (List.mem_singleton.mpr rfl)⟩

/-- Counterexample to C1 as stated: in the migration run, an entity with
prior `totalClones = 120` whose fetch fails ends the run with
`legacyOffset.clones = 120`, empty history, and `totalClones = 0`,
violating the equality. -/
theorem c1_migration_failure_counterexample :
    ∃ p ∈ (runMain 100 "t" ["a"] (fun _ => none) legacyLedger).repositories,
      p.2.totalClones ≠ p.2.legacyOffset.clones + sumClones p.2.history := by
  decide

/-- C4 (amended): across one reconciliation of an entity whose state
satisfies the ledger invariants, `legacyOffset.clones`,
`legacyOffset.views`, `totalClones` and `totalViews` never decrease,
provided the fetch window has one tuple per date per metric and no
fetched count is below the stored count for a date still in history (in
particular, for repeated identical responses).  A downward per-day
revision can decrease the totals (see the counterexample). -/
theorem c4_monotonicity (cutoff : Date) (r : RepoData) (f : FetchResult)
    (hu : datesUnique r.history)
    (hic : r.totalClones = r.legacyOffset.clones + sumClones r.history)
    (hiv : r.totalViews = r.legacyOffset.views + sumViews r.history)
    (huc : f.clonesByDay.Pairwise (fun a b => a.date ≠ b.date))
    (huv : f.viewsByDay.Pairwise (fun a b => a.date ≠ b.date))
    (hrc : ∀ t ∈ f.clonesByDay, ∀ e ∈ r.history, e.date = t.date → e.clones ≤ t.count)
    (hrv : ∀ t ∈ f.viewsByDay, ∀ e ∈ r.history, e.date = t.date → e.views ≤ t.count) :
    r.legacyOffset.clones ≤ (reconcileRepo cutoff r f).legacyOffset.clones ∧
    r.legacyOffset.views ≤ (reconcileRepo cutoff r f).legacyOffset.views ∧
    r.totalClones ≤ (reconcileRepo cutoff r f).totalClones ∧
    r.totalViews ≤ (reconcileRepo cutoff r f).totalViews := by
  refine ⟨reconcileRepo_legacy_clones_le cutoff r f,
    reconcileRepo_legacy_views_le cutoff r f, ?_, ?_⟩
  · rw [reconcileRepo_totalClones_eq, hic]
    exact Nat.add_le_add_left (sumClones_history_le_upserted hu huc hrc) _
  · rw [reconcileRepo_totalViews_eq, hiv]
    exact Nat.add_le_add_left (sumViews_history_le_upserted hu huv hrv) _

/-- Witness for C4 at a concrete invariant-satisfying state and an
upward-revising window. -/
theorem c4_monotonicity_witness :
    monoRepo.legacyOffset.clones ≤ (reconcileRepo 100 monoRepo monoFetch).legacyOffset.clones ∧
    monoRepo.legacyOffset.views ≤ (reconcileRepo 100 monoRepo monoFetch).legacyOffset.views ∧
    monoRepo.totalClones ≤ (reconcileRepo 100 monoRepo monoFetch).totalClones ∧
    monoRepo.totalViews ≤ (reconcileRepo 100 monoRepo monoFetch).totalViews :=
  c4_monotonicity 100 monoRepo monoFetch (by decide) (by decide) (by decide) (by decide)
    (by decide) (by decide) (by decide)

/-- Counterexample to C4 as stated: with day 150 fetched as 8 in run 1
and revised downward to 5 in run 2 (last-write-wins), `totalClones`
decreases from 8 to 5. -/
theorem c4_downward_revision_counterexample :
    (reconcileRepo 100
      (reconcileRepo 100 initRepo
        { clonesByDay := [{ date := 150, count := 8, uniques := 1 }]
        , viewsByDay := [], prs := 0, commits := 0 })
      { clonesByDay := [{ date := 150, count := 5, uniques := 1 }]
      , viewsByDay := [], prs := 0, commits := 0 }).totalClones <
    (reconcileRepo 100 initRepo
      { clonesByDay := [{ date := 150, count := 8, uniques := 1 }]
      , viewsByDay := [], prs := 0, commits := 0 }).totalClones := by
  decide

/-- C6: a day inside the window fetched as 5 in run 1 and revised to 8
in run 2 is overwritten in place: the totals reflect 5 after run 1 and 8
after run 2 — never the sum 13. -/
theorem c6_revision_tolerance (cutoff d : Date) (u1 u2 p1 k1 p2 k2 : Nat)
    (hcut : ¬ d < cutoff) :
    (reconcileRepo cutoff initRepo ⟨[⟨d, 5, u1⟩], [], p1, k1⟩).totalClones = 5 ∧
    (reconcileRepo cutoff (reconcileRepo cutoff initRepo ⟨[⟨d, 5, u1⟩], [], p1, k1⟩)
      ⟨[⟨d, 8, u2⟩], [], p2, k2⟩).totalClones = 8 ∧
    (reconcileRepo cutoff (reconcileRepo cutoff initRepo ⟨[⟨d, 5, u1⟩], [], p1, k1⟩)
      ⟨[⟨d, 8, u2⟩], [], p2, k2⟩).totalClones ≠ 5 + 8 := by
  have hup1 : upserted initRepo ⟨[⟨d, 5, u1⟩], [], p1, k1⟩ =
      [⟨d, 5, u1, 0, 0⟩] := rfl
  have h1 : (reconcileRepo cutoff initRepo ⟨[⟨d, 5, u1⟩], [], p1, k1⟩).totalClones = 5 := by
    rw [reconcileRepo_totalClones_eq, hup1]
    rfl
  have hfresh1 : ∀ e ∈ [(⟨d, 5, u1, 0, 0⟩ : DayRecord)], ¬ e.date < cutoff := by
    intro e he
    simp at he
    rw [he]
    exact hcut
  have hsort1 : ([(⟨d, 5, u1, 0, 0⟩ : DayRecord)].insertionSort byDateLe) =
      [⟨d, 5, u1, 0, 0⟩] := rfl
  have hfil : List.filter (fun e => !(decide (e.date < cutoff)))
      [(⟨d, 5, u1, 0, 0⟩ : DayRecord)] = [⟨d, 5, u1, 0, 0⟩] := by
    apply List.filter_eq_self.mpr
    intro a ha
    simp at ha
    rw [ha]
    simpa using hcut
  have hh1 : (reconcileRepo cutoff initRepo ⟨[⟨d, 5, u1⟩], [], p1, k1⟩).history =
      [⟨d, 5, u1, 0, 0⟩] := by
    rw [reconcileRepo_history_eq, hup1, hsort1, hfil]
  have hl1 : (reconcileRepo cutoff initRepo ⟨[⟨d, 5, u1⟩], [], p1, k1⟩).legacyOffset =
      ⟨0, 0⟩ := by
    have hdef : (reconcileRepo cutoff initRepo ⟨[⟨d, 5, u1⟩], [], p1, k1⟩).legacyOffset =
        (agePartition cutoff initRepo.legacyOffset
          ((upserted initRepo ⟨[⟨d, 5, u1⟩], [], p1, k1⟩).insertionSort byDateLe)).1 := rfl
    rw [hdef, hup1, hsort1, agePartition_of_fresh hfresh1]
    rfl
  have hupc2 : upsertClones [(⟨d, 5, u1, 0, 0⟩ : DayRecord)] ⟨d, 8, u2⟩ =
      [⟨d, 8, u2, 0, 0⟩] := by
    unfold upsertClones
    rw [if_pos (by simp)]
    simp
  have hup2 : upserted (reconcileRepo cutoff initRepo ⟨[⟨d, 5, u1⟩], [], p1, k1⟩)
      ⟨[⟨d, 8, u2⟩], [], p2, k2⟩ = [⟨d, 8, u2, 0, 0⟩] := by
    unfold upserted
    rw [hh1]
    show List.foldl upsertViews
      (List.foldl upsertClones (buildByDate [⟨d, 5, u1, 0, 0⟩]) [⟨d, 8, u2⟩]) [] =
      [⟨d, 8, u2, 0, 0⟩]
    simp only [List.foldl_cons, List.foldl_nil]
    rw [show buildByDate [(⟨d, 5, u1, 0, 0⟩ : DayRecord)] = [⟨d, 5, u1, 0, 0⟩] from rfl]
    rw [hupc2]
  have h2 : (reconcileRepo cutoff (reconcileRepo cutoff initRepo ⟨[⟨d, 5, u1⟩], [], p1, k1⟩)
      ⟨[⟨d, 8, u2⟩], [], p2, k2⟩).totalClones = 8 := by
    rw [reconcileRepo_totalClones_eq, hup2, hl1]
    rfl
  refine ⟨h1, h2, ?_⟩
  rw [h2]
  decide

/-- Witness for C6 at date 150 with cutoff 100. -/
theorem c6_revision_tolerance_witness :
    (reconcileRepo 100 initRepo ⟨[⟨150, 5, 1⟩], [], 0, 0⟩).totalClones = 5 ∧
    (reconcileRepo 100 (reconcileRepo 100 initRepo ⟨[⟨150, 5, 1⟩], [], 0, 0⟩)
      ⟨[⟨150, 8, 2⟩], [], 0, 0⟩).totalClones = 8 ∧
    (reconcileRepo 100 (reconcileRepo 100 initRepo ⟨[⟨150, 5, 1⟩], [], 0, 0⟩)
      ⟨[⟨150, 8, 2⟩], [], 0, 0⟩).totalClones ≠ 5 + 8 :=
  c6_revision_tolerance 100 150 1 2 0 0 0 0 (by decide)

/-- The whole run written as one record literal. -/
theorem runMain_eq (cutoff : Date) (now : String) (repos : List String)
    (fetch : String → Option EndpointResponses) (L : Ledger) :
    runMain cutoff now repos fetch L =
      { migrateLedger L with
        repositories := processRepos cutoff fetch repos (migrateLedger L).repositories
      , totalClones := (processRepos cutoff fetch repos (migrateLedger L).repositories).foldl
          (fun s p => s + p.2.totalClones) 0
      , totalViews := (processRepos cutoff fetch repos (migrateLedger L).repositories).foldl
          (fun s p => s + p.2.totalViews) 0
      , totalPRs := (processRepos cutoff fetch repos (migrateLedger L).repositories).foldl
          (fun s p => s + p.2.totalPRs) 0
      , totalCommits := (processRepos cutoff fetch repos (migrateLedger L).repositories).foldl
          (fun s p => s + p.2.totalCommits) 0
      , totalContributions :=
          (processRepos cutoff fetch repos (migrateLedger L).repositories).foldl
            (fun s p => s + p.2.totalCommits) 0 +
          ((processRepos cutoff fetch repos (migrateLedger L).repositories).foldl
            (fun s p => s + p.2.totalPRs) 0) * 10
      , lastUpdated := now } := rfl

/-- C5: running a second reconciliation with the identical fetch
outcomes (same window dates and counts — one tuple per date per metric,
all inside the retention window — same point-in-time counters, same
cutoff) leaves the whole ledger unchanged except `lastUpdated`. -/
theorem c5_idempotence (cutoff : Date) (now now' : String) (repos : List String)
    (fetch : String → Option EndpointResponses) (L : Ledger)
    (hkeys : (L.repositories.map Prod.fst).Nodup)
    (hgood : ∀ name resp, fetch name = some resp →
      (fetchTrafficData resp).clonesByDay.Pairwise (fun a b => a.date ≠ b.date) ∧
      (fetchTrafficData resp).viewsByDay.Pairwise (fun a b => a.date ≠ b.date) ∧
      (∀ t ∈ (fetchTrafficData resp).clonesByDay, ¬ t.date < cutoff) ∧
      (∀ t ∈ (fetchTrafficData resp).viewsByDay, ¬ t.date < cutoff)) :
    runMain cutoff now' repos fetch (runMain cutoff now repos fetch L) =
      { runMain cutoff now repos fetch L with lastUpdated := now' } := by
  have hmigR : migrateLedger (runMain cutoff now repos fetch L) =
      runMain cutoff now repos fetch L :=
    migrateLedger_eq_self (by
      rw [runMain_schemaVersion]
      exact migrateLedger_schemaVersion_not_lt L)
  have hnodup : (((runMain cutoff now repos fetch L).repositories).map Prod.fst).Nodup := by
    rw [runMain_repositories]
    apply nodupKeys_processRepos
    rw [keys_migrateLedger]
    exact hkeys
  have hdup : valuesByKey ((runMain cutoff now repos fetch L).repositories) :=
    valuesByKey_of_nodupKeys hnodup
  have hmem : ∀ name ∈ repos, ∀ resp, fetch name = some resp →
      ((runMain cutoff now repos fetch L).repositories).any (fun p => p.1 = name) = true := by
    intro name hn resp hf
    rw [runMain_repositories]
    exact processRepos_key_exists cutoff fetch hn hf
  have hfix : ∀ name ∈ repos, ∀ resp, fetch name = some resp →
      ∀ p ∈ (runMain cutoff now repos fetch L).repositories, p.1 = name →
        reconcileRepo cutoff p.2 (fetchTrafficData resp) = p.2 := by
    intro name hn resp hf p hp hk
    rw [runMain_repositories] at hp
    obtain ⟨r0, hr0⟩ := processRepos_processed cutoff fetch hn hf p hp hk
    rw [hr0]
    obtain ⟨h1, h2, h3, h4⟩ := hgood name resp hf
    exact reconcileRepo_idem cutoff r0 (fetchTrafficData resp) h1 h2 h3 h4
  have hfixed : processRepos cutoff fetch repos
      ((runMain cutoff now repos fetch L).repositories) =
      (runMain cutoff now repos fetch L).repositories :=
    processRepos_fixed cutoff fetch hdup hmem hfix
  have hTC : (runMain cutoff now repos fetch L).totalClones =
      ((runMain cutoff now repos fetch L).repositories).foldl
        (fun s p => s + p.2.totalClones) 0 := rfl
  have hTV : (runMain cutoff now repos fetch L).totalViews =
      ((runMain cutoff now repos fetch L).repositories).foldl
        (fun s p => s + p.2.totalViews) 0 := rfl
  have hTP : (runMain cutoff now repos fetch L).totalPRs =
      ((runMain cutoff now repos fetch L).repositories).foldl
        (fun s p => s + p.2.totalPRs) 0 := rfl
  have hTM : (runMain cutoff now repos fetch L).totalCommits =
      ((runMain cutoff now repos fetch L).repositories).foldl
        (fun s p => s + p.2.totalCommits) 0 := rfl
  have hContrib : (runMain cutoff now repos fetch L).totalContributions =
      (runMain cutoff now repos fetch L).totalCommits +
      (runMain cutoff now repos fetch L).totalPRs * 10 := rfl
  rw [runMain_eq cutoff now' repos fetch (runMain cutoff now repos fetch L), hmigR, hfixed,
    ← hTC, ← hTV, ← hTP, ← hTM, ← hContrib]

/-- Witness for C5: a concrete second run over one repository with a
resolved in-window response changes only `lastUpdated`. -/
theorem c5_idempotence_witness :
    runMain 100 "t2" ["r1"] (fun _ => some okResponses)
      (runMain 100 "t1" ["r1"] (fun _ => some okResponses) freshLedger) =
    { runMain 100 "t1" ["r1"] (fun _ => some okResponses) freshLedger with
      lastUpdated := "t2" } :=
  c5_idempotence 100 "t1" "t2" ["r1"] (fun _ => some okResponses) freshLedger
    (by decide)
    (fun name resp h => by
      injection h with h'
      subst h'
      exact ⟨by decide, by decide, by decide, by decide⟩)

end Traffic

-- sanity checks on concrete inputs
example :
    Traffic.reconcileRepo 100 Traffic.initRepo
      { clonesByDay := [⟨110, 3, 1⟩, ⟨111, 5, 2⟩], viewsByDay := [], prs := 2, commits := 7 } =
    { legacyOffset := ⟨0, 0⟩, totalClones := 8, totalViews := 0, totalPRs := 2
    , totalCommits := 7
    , history := [⟨110, 3, 1, 0, 0⟩, ⟨111, 5, 2, 0, 0⟩] } := by decide

example :
    Traffic.reconcileRepo 100
      { legacyOffset := ⟨100, 0⟩, totalClones := 104, totalViews := 0, totalPRs := 0
      , totalCommits := 0, history := [⟨90, 4, 1, 0, 0⟩] }
      { clonesByDay := [], viewsByDay := [], prs := 0, commits := 0 } =
    { legacyOffset := ⟨104, 0⟩, totalClones := 104, totalViews := 0, totalPRs := 0
    , totalCommits := 0, history := [] } := by decide
